import Mathlib

/-!
# subdomain-lister: chain resolution and the worker pipeline

A shallow embedding of `main.go`.

* The DNS library boundary (`dns.Fqdn`, `dns.Exchange`) is a `Resolver`
  record: a deterministic oracle from a question to a response or a
  transport error.
* `lookupA`, `lookupCNAME` and `lookup` follow the Go functions statement by
  statement; the unbounded `for` loop of `lookup` is run with an iteration
  budget and records the queries it issues.
* The goroutines of `main` (coordinator, workers, aggregator) and the three
  channels are a transition system `step` driven by a schedule of actions.
-/

namespace SubdomainLister

/-! ## DNS records and the resolver boundary -/

/-- An IPv4 address as carried by an A record: four octets. -/
structure IPv4 where
  o1 : Fin 256
  o2 : Fin 256
  o3 : Fin 256
  o4 : Fin 256
  deriving DecidableEq

/-- The textual (dotted-quad) form of an address, `a.A.String()` in the source. -/
def IPv4.String (ip : IPv4) : String :=
  toString ip.o1.val ++ "." ++ toString ip.o2.val ++ "." ++
    toString ip.o3.val ++ "." ++ toString ip.o4.val

/-- An answer record of a DNS response, by its dynamic type: `*dns.A`,
`*dns.CNAME`, or any other record type (identified by its type code). -/
inductive RR where
  | A (a : IPv4)
  | CNAME (Target : String)
  | other (rrtype : Nat)
  deriving DecidableEq

/-- The record type asked for in the single question of a query. -/
inductive QType where
  | TypeA
  | TypeCNAME
  deriving DecidableEq

/-- The DNS library as seen by the program, for one fixed server address:
`Fqdn` is `dns.Fqdn`, and `Exchange name qtype` is `dns.Exchange` on the
message with the single question `(name, qtype)`; it yields the answer
section of the response, or the text of a transport error. -/
structure Resolver where
  Fqdn : String → String
  Exchange : String → QType → Except String (List RR)

/-- The two kinds of error value returned by `lookupA` and `lookupCNAME`:
the error handed back by `dns.Exchange`, or `errors.New("no answer")`. -/
inductive DNSError where
  | transport (msg : String)
  | noAnswer
  deriving DecidableEq

/-- A query issued by `lookup`: the name passed to `lookupCNAME` or `lookupA`
and the record type asked for. -/
structure Query where
  name : String
  qtype : QType
  deriving DecidableEq

/-- The `result` struct of the source. -/
structure result where
  IPAddress : String
  Hostname : String
  deriving DecidableEq

/-! ## The resolver client -/

/-- Function `lookupA`: one A query; the loop over `in.Answer` appends the
string of every `*dns.A` answer to `ips`. -/
def lookupA (r : Resolver) (fqdn : String) : Except DNSError (List String) :=
  match r.Exchange (r.Fqdn fqdn) QType.TypeA with
  | .error e => .error (DNSError.transport e)
  | .ok answer =>
    if answer.length < 1 then .error DNSError.noAnswer
    else .ok (answer.foldl (fun ips rr =>
      match rr with
      | RR.A a => ips ++ [a.String]
      | _ => ips) [])

/-- Function `lookupCNAME`: one CNAME query; the loop over `in.Answer` appends
the target of every `*dns.CNAME` answer to `fqdns`. -/
def lookupCNAME (r : Resolver) (fqdn : String) : Except DNSError (List String) :=
  match r.Exchange (r.Fqdn fqdn) QType.TypeCNAME with
  | .error e => .error (DNSError.transport e)
  | .ok answer =>
    if answer.length < 1 then .error DNSError.noAnswer
    else .ok (answer.foldl (fun fqdns rr =>
      match rr with
      | RR.CNAME t => fqdns ++ [t]
      | _ => fqdns) [])

/-! ## The chain resolver -/

/-- The `for` loop of `lookup`, run for at most `k` iterations from the loop
variable `cfqdn`, with the queries issued so far in `issued`.  The first
component is `some results` when the loop has reached a `break` (the value
`lookup` returns), and `none` when all `k` iterations ended in `continue`;
the second component is the list of queries issued. -/
def lookupLoop (r : Resolver) (fqdn : String) :
    Nat → String → List Query → Option (List result) × List Query
  | 0, _, issued => (none, issued)
  | k + 1, cfqdn, issued =>
    match lookupCNAME r cfqdn with
    | .ok (c :: _) => lookupLoop r fqdn k c (issued ++ [⟨cfqdn, QType.TypeCNAME⟩])
    | _ =>
      match lookupA r cfqdn with
      | .error _ =>
        (some [], issued ++ [⟨cfqdn, QType.TypeCNAME⟩, ⟨cfqdn, QType.TypeA⟩])
      | .ok ips =>
        (some (ips.foldl (fun results ip => results ++ [⟨ip, fqdn⟩]) []),
          issued ++ [⟨cfqdn, QType.TypeCNAME⟩, ⟨cfqdn, QType.TypeA⟩])

/-- Function `lookup` with an iteration budget: `some results` when the call
returns within `k` loop iterations, `none` otherwise. -/
def lookup (r : Resolver) (fqdn : String) (k : Nat) : Option (List result) :=
  (lookupLoop r fqdn k fqdn []).1

/-- The queries `lookup` issues during its first `k` loop iterations. -/
def lookupQueries (r : Resolver) (fqdn : String) (k : Nat) : List Query :=
  (lookupLoop r fqdn k fqdn []).2

/-! ## The concurrent pipeline of `main` -/

/-- Control point of one `worker` goroutine. -/
inductive WorkerState where
  /-- At `for fqdn := range fqdns`, about to receive. -/
  | recv
  /-- Holding `fqdn`, inside the call `lookup(fqdn, serverAddr)`. -/
  | resolving (fqdn : String)
  /-- Holding a non-empty `results`, at `gather <- results`. -/
  | sending (fqdn : String) (results : List result)
  /-- The loop over `fqdns` has ended; at `tracker <- e`. -/
  | signalling
  /-- The completion signal has been delivered; the goroutine has returned. -/
  | done
  deriving DecidableEq

/-- Control point of the anonymous goroutine that gathers the results. -/
inductive AggState where
  /-- At `for r := range gather`. -/
  | ranging
  /-- The loop over `gather` has ended; at `tracker <- e`. -/
  | signalling
  /-- The completion signal has been delivered. -/
  | done
  deriving DecidableEq

/-- Control point of `main` from the scanner loop on. -/
inductive MainState where
  /-- In `for scanner.Scan()`, with the lines not yet read. -/
  | scanning (rest : List String)
  /-- In `for i := 0; i < W; i++ { <-tracker }`, about to test `i < W`. -/
  | waiting (i : Nat)
  /-- After `close(gather)`, at the last `<-tracker`. -/
  | waitingAgg
  /-- Past the last `<-tracker`: `results` is read and printed. -/
  | finished
  deriving DecidableEq

/-- A state of the running program: the control points of the goroutines, the
buffer and closed flag of the channel `fqdns`, the closed flag of the
unbuffered channel `gather`, the shared slice `results`, and whether the
program has died of a run-time panic. -/
structure Config where
  main : MainState
  workers : List WorkerState
  agg : AggState
  fqdns : List String
  fqdnsClosed : Bool
  gatherClosed : Bool
  results : List result
  panicked : Bool
  deriving DecidableEq

/-- The steps the scheduler can pick.  Communication over an unbuffered
channel is one step of sender and receiver together. -/
inductive Action where
  /-- Statement `fqdns <- fmt.Sprintf("%s.%s", scanner.Text(), domain)`. -/
  | mainSend
  /-- Statement `close(fqdns)` once the scanner is exhausted. -/
  | mainCloseFqdns
  /-- Statement `close(gather)` once the loop over `i` has ended. -/
  | mainCloseGather
  /-- Worker `i` receives from `fqdns`, or finds it closed and drained. -/
  | workerRecv (i : Nat)
  /-- The call to `lookup` in worker `i` returns, after `k` loop iterations at most. -/
  | workerLookup (i : Nat) (k : Nat)
  /-- Worker `i` sends its batch on `gather` and the aggregator appends it. -/
  | workerSend (i : Nat)
  /-- Worker `i` sends on `tracker` and `main` receives. -/
  | workerSignal (i : Nat)
  /-- The aggregator finds `gather` closed and leaves its loop. -/
  | aggExit
  /-- The aggregator sends on `tracker` and `main` receives. -/
  | aggSignal
  deriving DecidableEq

/-- The state after `main` has created the channels and started the `W`
workers and the aggregator, with the lines of the wordlist still to scan. -/
def init (W : Nat) (words : List String) : Config :=
  { main := MainState.scanning words
    workers := List.replicate W WorkerState.recv
    agg := AggState.ranging
    fqdns := []
    fqdnsClosed := false
    gatherClosed := false
    results := []
    panicked := false }

/-- The candidate name built from a wordlist line: `fmt.Sprintf("%s.%s", line, domain)`. -/
def candidate (domain : String) (line : String) : String :=
  line ++ "." ++ domain

/-- The receive `<-tracker` in `main`, when some goroutine is sending: inside
the loop it counts one more signal, after `close(gather)` it lets `main`
proceed to printing. -/
def mainRecvTracker (W : Nat) : MainState → Option MainState
  | MainState.waiting i => if i < W then some (MainState.waiting (i + 1)) else none
  | MainState.waitingAgg => some MainState.finished
  | _ => none

/-- One step of the program.  `W` is the worker count (the capacity of
`fqdns`); `none` means the action is not enabled in the state.  A send on a
closed channel or a second `close` is a run-time panic, after which nothing
runs.  A send on `fqdns` goes through the buffer: it is enabled while the
buffer holds fewer than `W` candidates, so with `W = 0` (an unbuffered channel
and, from `init`, no worker to receive) it is never enabled. -/
def step (r : Resolver) (W : Nat) (domain : String) (c : Config) : Action → Option Config
  | Action.mainSend =>
    if c.panicked then none else
    match c.main with
    | MainState.scanning (line :: rest) =>
      if c.fqdnsClosed then some { c with panicked := true }
      else if c.fqdns.length < W then
        some { c with main := MainState.scanning rest
                      fqdns := c.fqdns ++ [candidate domain line] }
      else none
    | _ => none
  | Action.mainCloseFqdns =>
    if c.panicked then none else
    match c.main with
    | MainState.scanning [] =>
      if c.fqdnsClosed then some { c with panicked := true }
      else some { c with main := MainState.waiting 0, fqdnsClosed := true }
    | _ => none
  | Action.mainCloseGather =>
    if c.panicked then none else
    match c.main with
    | MainState.waiting i =>
      if i < W then none
      else if c.gatherClosed then some { c with panicked := true }
      else some { c with main := MainState.waitingAgg, gatherClosed := true }
    | _ => none
  | Action.workerRecv i =>
    if c.panicked then none else
    match c.workers[i]? with
    | some WorkerState.recv =>
      match c.fqdns with
      | fqdn :: rest =>
        some { c with workers := c.workers.set i (WorkerState.resolving fqdn), fqdns := rest }
      | [] =>
        if c.fqdnsClosed then some { c with workers := c.workers.set i WorkerState.signalling }
        else none
    | _ => none
  | Action.workerLookup i k =>
    if c.panicked then none else
    match c.workers[i]? with
    | some (WorkerState.resolving fqdn) =>
      match lookup r fqdn k with
      | some results =>
        if results.length > 0 then
          some { c with workers := c.workers.set i (WorkerState.sending fqdn results) }
        else some { c with workers := c.workers.set i WorkerState.recv }
      | none => none
    | _ => none
  | Action.workerSend i =>
    if c.panicked then none else
    match c.workers[i]? with
    | some (WorkerState.sending _ results) =>
      if c.gatherClosed then some { c with panicked := true }
      else if c.agg = AggState.ranging then
        some { c with workers := c.workers.set i WorkerState.recv
                      results := c.results ++ results }
      else none
    | _ => none
  | Action.workerSignal i =>
    if c.panicked then none else
    match c.workers[i]? with
    | some WorkerState.signalling =>
      match mainRecvTracker W c.main with
      | some m => some { c with main := m, workers := c.workers.set i WorkerState.done }
      | none => none
    | _ => none
  | Action.aggExit =>
    if c.panicked then none else
    if c.agg = AggState.ranging ∧ c.gatherClosed = true then
      some { c with agg := AggState.signalling }
    else none
  | Action.aggSignal =>
    if c.panicked then none else
    if c.agg = AggState.signalling then
      match mainRecvTracker W c.main with
      | some m => some { c with main := m, agg := AggState.done }
      | none => none
    else none

/-- Runs a schedule from a state; `none` when some action of the schedule is
not enabled where it is scheduled. -/
def run (r : Resolver) (W : Nat) (domain : String) : Config → List Action → Option Config
  | c, [] => some c
  | c, a :: sched =>
    match step r W domain c a with
    | some c1 => run r W domain c1 sched
    | none => none

/-- The batch that reaches the aggregator with an action: the `results` that
worker `i` hands over when its send on `gather` meets the aggregator's
receive, together with the candidate they were resolved for; `none` for every
other action, and for a send that is not enabled or panics. -/
def delivered (c : Config) : Action → Option (String × List result)
  | Action.workerSend i =>
    if c.panicked then none else
    match c.workers[i]? with
    | some (WorkerState.sending fqdn results) =>
      if c.gatherClosed then none
      else if c.agg = AggState.ranging then some (fqdn, results)
      else none
    | _ => none
  | _ => none

/-- The batches received by the aggregator along a schedule run from a state,
in the order in which they arrive. -/
def arrivals (r : Resolver) (W : Nat) (domain : String) :
    Config → List Action → List (String × List result)
  | _, [] => []
  | c, a :: sched =>
    match step r W domain c a with
    | some c1 => (delivered c a).toList ++ arrivals r W domain c1 sched
    | none => []

/-- Number of completion signals `main` has received from workers along a schedule. -/
def workerSignals (sched : List Action) : Nat :=
  sched.countP (fun a => match a with | Action.workerSignal _ => true | _ => false)

/-- Number of completion signals `main` has received from worker `i` along a schedule. -/
def workerSignalsOf (i : Nat) (sched : List Action) : Nat :=
  sched.count (Action.workerSignal i)

/-- Number of completion signals `main` has received from the aggregator along a schedule. -/
def aggSignals (sched : List Action) : Nat :=
  sched.count Action.aggSignal

/-! ## Example resolvers -/

/-- The normalisation of `dns.Fqdn` on names without escapes: a trailing dot
is added when missing. -/
def addDot (s : String) : String :=
  if s.back = '.' then s else s ++ "."

/-- Scenario A of the specification: `www` and `mail` have one A record each,
every other name has no records. -/
def resolverA : Resolver where
  Fqdn := addDot
  Exchange := fun name q =>
    match q with
    | QType.TypeA =>
      if name = "www.example.com." then .ok [RR.A ⟨93, 184, 216, 34⟩]
      else if name = "mail.example.com." then .ok [RR.A ⟨10, 0, 0, 5⟩]
      else .ok []
    | QType.TypeCNAME => .ok []

/-- Scenario B of the specification: `foo.example.com` is an alias of
`bar.example.net`, which has the A record `1.2.3.4`. -/
def resolverB : Resolver where
  Fqdn := addDot
  Exchange := fun name q =>
    match q with
    | QType.TypeA =>
      if name = "bar.example.net." then .ok [RR.A ⟨1, 2, 3, 4⟩] else .ok []
    | QType.TypeCNAME =>
      if name = "foo.example.com." then
        .ok [RR.CNAME "bar.example.net.", RR.CNAME "decoy.example.org."]
      else .ok []

/-- A zone with a CNAME cycle: `a.example.com` and `b.example.com` are aliases
of each other. -/
def resolverCycle : Resolver where
  Fqdn := addDot
  Exchange := fun name q =>
    match q with
    | QType.TypeA => .ok []
    | QType.TypeCNAME =>
      if name = "a.example.com." then .ok [RR.CNAME "b.example.com."]
      else if name = "b.example.com." then .ok [RR.CNAME "a.example.com."]
      else .ok []

/-- A resolver whose CNAME queries all time out while its A queries are
answered with one address. -/
def resolverFlaky : Resolver where
  Fqdn := addDot
  Exchange := fun _ q =>
    match q with
    | QType.TypeA => .ok [RR.A ⟨192, 0, 2, 1⟩]
    | QType.TypeCNAME => .error "i/o timeout"

/-- A resolver that answers every query with one record of the other kind:
a CNAME record to an A query, an A record to a CNAME query. -/
def resolverOther : Resolver where
  Fqdn := addDot
  Exchange := fun _ q =>
    match q with
    | QType.TypeA => .ok [RR.CNAME "alias.example.net."]
    | QType.TypeCNAME => .ok [RR.A ⟨192, 0, 2, 1⟩]

/-- A resolver whose answer sections mix record types: addresses, aliases and
a record of another type (type code 46). -/
def resolverMixed : Resolver where
  Fqdn := addDot
  Exchange := fun _ q =>
    match q with
    | QType.TypeA =>
      .ok [RR.CNAME "alias.example.net.", RR.A ⟨192, 0, 2, 1⟩, RR.other 46, RR.A ⟨192, 0, 2, 2⟩]
    | QType.TypeCNAME =>
      .ok [RR.CNAME "a.example.net.", RR.A ⟨192, 0, 2, 1⟩, RR.CNAME "b.example.net."]

/-- The names visited in the zone of `resolverCycle`, starting at `a.example.com.`. -/
def cycleNames (i : Nat) : String :=
  if i % 2 = 0 then "a.example.com." else "b.example.com."

/-- The names visited when resolving `foo.example.com` in scenario B. -/
def namesB (i : Nat) : String :=
  if i = 0 then "foo.example.com" else "bar.example.net."

/-! ## Example run -/

/-- The wordlist of scenario A. -/
def wordsA : List String := ["www", "mail", "doesnotexist123"]

/-- A complete schedule of scenario A with two workers, in which the batch of
`mail` reaches the aggregator before the batch of `www`. -/
def scheduleA : List Action :=
  [Action.mainSend, Action.mainSend, Action.workerRecv 0, Action.workerRecv 1,
   Action.mainSend, Action.workerLookup 1 1, Action.workerSend 1,
   Action.workerLookup 0 1, Action.workerSend 0, Action.workerRecv 0,
   Action.mainCloseFqdns, Action.workerRecv 1, Action.workerSignal 1,
   Action.workerLookup 0 1, Action.workerRecv 0, Action.workerSignal 0,
   Action.mainCloseGather, Action.aggExit, Action.aggSignal]

/-- The state `scheduleA` ends in. -/
def finalA : Config :=
  { main := MainState.finished
    workers := [WorkerState.done, WorkerState.done]
    agg := AggState.done
    fqdns := []
    fqdnsClosed := true
    gatherClosed := true
    results := [{ IPAddress := "10.0.0.5", Hostname := "mail.example.com" },
                { IPAddress := "93.184.216.34", Hostname := "www.example.com" }]
    panicked := false }

/-- What `lookup` returns in scenario A, where one loop iteration suffices. -/
def lookupOnce (fqdn : String) : List result :=
  (lookup resolverA fqdn 1).getD []

/-! ## Specification-side vocabulary -/

/-- The textual addresses of the A-typed records of an answer section, in
answer-section order, every other record skipped. -/
def answersA (answer : List RR) : List String :=
  answer.filterMap (fun rr =>
    match rr with
    | RR.A a => some a.String
    | _ => none)

/-- The targets of the CNAME-typed records of an answer section, in
answer-section order, every other record skipped. -/
def answersCNAME (answer : List RR) : List String :=
  answer.filterMap (fun rr =>
    match rr with
    | RR.CNAME t => some t
    | _ => none)

/-- The CNAME query for `name` fails or yields no targets. -/
def CnameStops (r : Resolver) (name : String) : Prop :=
  (∃ e, lookupCNAME r name = .error e) ∨ lookupCNAME r name = .ok []

/-- One pair per address, all with the same host name. -/
def pairsFor (host : String) (ips : List String) : List result :=
  ips.map (fun ip => { IPAddress := ip, Hostname := host })

/-- The outcome of the A query on the name at which a CNAME chain ends, as
pairs for the host `fqdn`: nothing when the query fails. -/
def chainOutcome (r : Resolver) (fqdn last : String) : List result :=
  match lookupA r last with
  | .error _ => []
  | .ok ips => pairsFor fqdn ips

/-- The queries of a resolution that follows the names `c 0, ..., c n` and
ends at `c n`: one CNAME query per name, then the A query for `c n`. -/
def chainQueries (c : Nat → String) (n : Nat) : List Query :=
  (List.range (n + 1)).map (fun i => { name := c i, qtype := QType.TypeCNAME }) ++
    [{ name := c n, qtype := QType.TypeA }]

/-! ## Accounting over the pipeline -/

/-- The candidate a worker holds: the one it is resolving, or the one whose
batch it is about to send. -/
def held : WorkerState → Option String
  | WorkerState.resolving fqdn => some fqdn
  | WorkerState.sending fqdn _ => some fqdn
  | _ => none

/-- Sum of a quantity over the workers. -/
def total (g : WorkerState → Nat) (ws : List WorkerState) : Nat :=
  (ws.map g).sum

/-- Number of workers holding the candidate `x`. -/
def heldCount (x : String) (ws : List WorkerState) : Nat :=
  total (fun w => if held w = some x then 1 else 0) ws

/-- Number of workers that have delivered their completion signal. -/
def doneCount (ws : List WorkerState) : Nat :=
  total (fun w => if w = WorkerState.done then 1 else 0) ws

/-- The wordlist lines `main` has not read yet. -/
def restOf : MainState → List String
  | MainState.scanning rest => rest
  | _ => []

/-- Steps a worker can still take without receiving another candidate. -/
def workerRank : WorkerState → Nat
  | WorkerState.recv => 2
  | WorkerState.resolving _ => 4
  | WorkerState.sending _ _ => 3
  | WorkerState.signalling => 1
  | WorkerState.done => 0

/-- Steps the aggregator can still take on its own. -/
def aggRank : AggState → Nat
  | AggState.ranging => 2
  | AggState.signalling => 1
  | AggState.done => 0

/-- Steps `main` can still take, each unread line counted with the three
worker steps it will cause. -/
def mainRank (W : Nat) : MainState → Nat
  | MainState.scanning rest => 4 * rest.length + W + 3
  | MainState.waiting i => (W - i) + 2
  | MainState.waitingAgg => 1
  | MainState.finished => 0

/-- A bound on the number of steps the program can still take from a state;
every step lowers it. -/
def stepsLeft (W : Nat) (c : Config) : Nat :=
  (if c.panicked then 0 else 1) + mainRank W c.main + aggRank c.agg
    + total workerRank c.workers + 3 * c.fqdns.length

/-- The invariant of the pipeline, relating a state to the schedule `hist`
that led to it from `init W words` and to the batches `arr` that have reached
the aggregator along it, in arrival order. -/
structure Inv (r : Resolver) (W : Nat) (domain : String) (words : List String)
    (hist : List Action) (arr : List (String × List result)) (c : Config) : Prop where
  len : c.workers.length = W
  noPanic : c.panicked = false
  cap : c.fqdns.length ≤ W
  scan : ∀ rest, c.main = MainState.scanning rest →
    rest.length ≤ words.length ∧ c.fqdnsClosed = false ∧ c.gatherClosed = false ∧
      c.agg = AggState.ranging ∧ workerSignals hist = 0 ∧ aggSignals hist = 0
  wait : ∀ i, c.main = MainState.waiting i →
    c.fqdnsClosed = true ∧ c.gatherClosed = false ∧ c.agg = AggState.ranging ∧
      workerSignals hist = i ∧ aggSignals hist = 0
  wagg : c.main = MainState.waitingAgg →
    c.fqdnsClosed = true ∧ c.gatherClosed = true ∧ c.agg ≠ AggState.done ∧
      workerSignals hist = W ∧ aggSignals hist = 0
  fin : c.main = MainState.finished →
    c.fqdnsClosed = true ∧ c.gatherClosed = true ∧ c.agg = AggState.done ∧
      workerSignals hist = W ∧ aggSignals hist = 1
  cnt : doneCount c.workers = workerSignals hist
  sigOf : ∀ j : Nat, workerSignalsOf j hist = if c.workers[j]? = some WorkerState.done then 1 else 0
  exited : ∀ j : Nat, (c.workers[j]? = some WorkerState.signalling ∨
      c.workers[j]? = some WorkerState.done) → c.fqdnsClosed = true ∧ c.fqdns = []
  batch : ∀ (j : Nat) (fqdn : String) (rs : List result),
    c.workers[j]? = some (WorkerState.sending fqdn rs) →
      (∃ k, lookup r fqdn k = some rs) ∧ 0 < rs.length
  content : ∃ log : List (String × List result),
    (∀ x, (log.map Prod.fst).count x + heldCount x c.workers + c.fqdns.count x
        + ((restOf c.main).map (candidate domain)).count x
      = (words.map (candidate domain)).count x) ∧
    (∀ e ∈ log, ∃ k, lookup r e.1 k = some e.2) ∧
    c.results = (log.map Prod.snd).flatten ∧
    log.filter (fun e => decide (0 < e.2.length)) = arr

/-! ## The resolver client: lemmas -/

theorem foldl_append_filterMap {α β : Type} (f : List β → α → List β) (g : α → Option β)
    (hs : ∀ acc x b, g x = some b → f acc x = acc ++ [b])
    (hn : ∀ acc x, g x = none → f acc x = acc) :
    ∀ (l : List α) (acc : List β), l.foldl f acc = acc ++ l.filterMap g := by
  intro l
  induction l with
  | nil => intro acc; simp
  | cons x xs ih =>
    intro acc
    rw [List.foldl_cons, ih]
    cases hg : g x with
    | none => rw [hn acc x hg, List.filterMap_cons_none hg]
    | some b => rw [hs acc x b hg, List.filterMap_cons_some hg]; simp

theorem lookupA_ok (r : Resolver) (name : String) (answer : List RR)
    (hx : r.Exchange (r.Fqdn name) QType.TypeA = .ok answer) (hne : answer ≠ []) :
    lookupA r name = .ok (answersA answer) := by
  have hlen : ¬ answer.length < 1 := by
    cases answer with
    | nil => exact absurd rfl hne
    | cons a as => simp
  simp only [lookupA, hx, hlen, if_false]
  congr 1
  rw [foldl_append_filterMap _ (fun rr => match rr with | RR.A a => some a.String | _ => none)]
  · simp [answersA]
  · intro acc x b h
    cases x <;> simp at h
    subst h; rfl
  · intro acc x h
    cases x <;> simp at h <;> rfl

theorem lookupCNAME_ok (r : Resolver) (name : String) (answer : List RR)
    (hx : r.Exchange (r.Fqdn name) QType.TypeCNAME = .ok answer) (hne : answer ≠ []) :
    lookupCNAME r name = .ok (answersCNAME answer) := by
  have hlen : ¬ answer.length < 1 := by
    cases answer with
    | nil => exact absurd rfl hne
    | cons a as => simp
  simp only [lookupCNAME, hx, hlen, if_false]
  congr 1
  rw [foldl_append_filterMap _ (fun rr => match rr with | RR.CNAME t => some t | _ => none)]
  · simp [answersCNAME]
  · intro acc x b h
    cases x <;> simp at h
    subst h; rfl
  · intro acc x h
    cases x <;> simp at h <;> rfl

theorem lookupA_nil (r : Resolver) (name : String)
    (hx : r.Exchange (r.Fqdn name) QType.TypeA = .ok []) :
    lookupA r name = .error DNSError.noAnswer := by
  simp [lookupA, hx]

theorem lookupCNAME_nil (r : Resolver) (name : String)
    (hx : r.Exchange (r.Fqdn name) QType.TypeCNAME = .ok []) :
    lookupCNAME r name = .error DNSError.noAnswer := by
  simp [lookupCNAME, hx]

/-! ## The chain resolver: lemmas -/

theorem foldl_pairs (fqdn : String) (ips : List String) :
    ips.foldl (fun results ip => results ++ [({ IPAddress := ip, Hostname := fqdn } : result)]) []
      = pairsFor fqdn ips := by
  have h := foldl_append_filterMap
    (fun (results : List result) (ip : String) =>
      results ++ [({ IPAddress := ip, Hostname := fqdn } : result)])
    (fun ip => some ({ IPAddress := ip, Hostname := fqdn } : result))
    (by intro acc x b hb; simp at hb; subst hb; rfl)
    (by intro acc x hb; simp at hb) ips []
  rw [h]
  clear h
  induction ips with
  | nil => rfl
  | cons x xs ih => simp_all [pairsFor]

theorem lookupLoop_continue (r : Resolver) (fqdn : String) (k : Nat) (cfqdn : String)
    (issued : List Query) (t : String) (ts : List String)
    (h : lookupCNAME r cfqdn = .ok (t :: ts)) :
    lookupLoop r fqdn (k + 1) cfqdn issued
      = lookupLoop r fqdn k t (issued ++ [{ name := cfqdn, qtype := QType.TypeCNAME }]) := by
  rw [lookupLoop]
  simp [h]

theorem lookupLoop_break (r : Resolver) (fqdn : String) (k : Nat) (cfqdn : String)
    (issued : List Query) (h : CnameStops r cfqdn) :
    lookupLoop r fqdn (k + 1) cfqdn issued
      = (some (chainOutcome r fqdn cfqdn),
          issued ++ [{ name := cfqdn, qtype := QType.TypeCNAME },
                     { name := cfqdn, qtype := QType.TypeA }]) := by
  rw [lookupLoop]
  rcases h with ⟨e, he⟩ | he
  · simp only [he, chainOutcome]
    cases lookupA r cfqdn with
    | error e2 => rfl
    | ok ips => simp [foldl_pairs]
  · simp only [he, chainOutcome]
    cases lookupA r cfqdn with
    | error e2 => rfl
    | ok ips => simp [foldl_pairs]

theorem cname_cases (r : Resolver) (name : String) :
    CnameStops r name ∨ ∃ t ts, lookupCNAME r name = .ok (t :: ts) := by
  unfold CnameStops
  cases h : lookupCNAME r name with
  | error e => exact Or.inl (Or.inl ⟨e, rfl⟩)
  | ok l =>
    cases l with
    | nil => exact Or.inl (Or.inr rfl)
    | cons t ts => exact Or.inr ⟨t, ts, rfl⟩

/-- Following a chain `c 0, ..., c n` that stops at `c n`: with a budget of at
least `n + 1` iterations the loop breaks with the outcome of the A query on
`c n`, having issued exactly the queries of the chain. -/
theorem lookupLoop_chain (r : Resolver) (fqdn : String) :
    ∀ (n : Nat) (c : Nat → String) (issued : List Query) (k : Nat),
      (∀ i, i < n → ∃ ts, lookupCNAME r (c i) = .ok (c (i + 1) :: ts)) →
      CnameStops r (c n) → n + 1 ≤ k →
      lookupLoop r fqdn k (c 0) issued
        = (some (chainOutcome r fqdn (c n)), issued ++ chainQueries c n) := by
  intro n
  induction n with
  | zero =>
    intro c issued k _ hend hk
    obtain ⟨k1, rfl⟩ : ∃ k1, k = k1 + 1 := ⟨k - 1, by omega⟩
    rw [lookupLoop_break r fqdn k1 (c 0) issued hend]
    simp [chainQueries, List.range_succ]
  | succ n ih =>
    intro c issued k hchain hend hk
    obtain ⟨k1, rfl⟩ : ∃ k1, k = k1 + 1 := ⟨k - 1, by omega⟩
    obtain ⟨ts, hts⟩ := hchain 0 (by omega)
    rw [lookupLoop_continue r fqdn k1 (c 0) issued (c 1) ts hts]
    have h := ih (fun i => c (i + 1)) (issued ++ [{ name := c 0, qtype := QType.TypeCNAME }]) k1
      (fun i hi => hchain (i + 1) (by omega)) hend (by omega)
    simp only at h
    rw [h]
    congr 1
    simp only [chainQueries]
    rw [List.range_succ_eq_map (n + 1)]
    simp [List.map_map, Function.comp_def]

theorem lookupLoop_hostname (r : Resolver) (fqdn : String) :
    ∀ (k : Nat) (cfqdn : String) (issued : List Query) (rs : List result),
      (lookupLoop r fqdn k cfqdn issued).1 = some rs → ∀ p ∈ rs, p.Hostname = fqdn := by
  intro k
  induction k with
  | zero => intro cfqdn issued rs h; simp [lookupLoop] at h
  | succ k ih =>
    intro cfqdn issued rs h
    rcases cname_cases r cfqdn with hs | ⟨t, ts, ht⟩
    · rw [lookupLoop_break r fqdn k cfqdn issued hs] at h
      simp only [Option.some.injEq] at h
      subst h
      intro p hp
      unfold chainOutcome at hp
      cases hA : lookupA r cfqdn with
      | error e => simp [hA] at hp
      | ok ips =>
        simp only [hA, pairsFor, List.mem_map] at hp
        obtain ⟨ip, _, rfl⟩ := hp
        rfl
    · rw [lookupLoop_continue r fqdn k cfqdn issued t ts ht] at h
      exact ih _ _ rs h

/-- A resolution that keeps finding a first CNAME target never breaks out of
the loop and issues CNAME queries only. -/
theorem lookupLoop_endless (r : Resolver) (fqdn : String) :
    ∀ (k : Nat) (c : Nat → String) (issued : List Query),
      (∀ i, ∃ ts, lookupCNAME r (c i) = .ok (c (i + 1) :: ts)) →
      lookupLoop r fqdn k (c 0) issued
        = (none, issued ++ (List.range k).map
            (fun i => { name := c i, qtype := QType.TypeCNAME })) := by
  intro k
  induction k with
  | zero => intro c issued _; simp [lookupLoop]
  | succ k ih =>
    intro c issued hc
    obtain ⟨ts, hts⟩ := hc 0
    rw [lookupLoop_continue r fqdn k (c 0) issued (c 1) ts hts]
    have h := ih (fun i => c (i + 1)) (issued ++ [{ name := c 0, qtype := QType.TypeCNAME }])
      (fun i => hc (i + 1))
    simp only at h
    rw [h, List.range_succ_eq_map k]
    simp [List.map_map, Function.comp_def]

/-- The value returned by `lookup` does not depend on the iteration budget. -/
theorem lookupLoop_mono (r : Resolver) (fqdn : String) :
    ∀ (k : Nat) (cfqdn : String) (issued : List Query) (rs : List result),
      (lookupLoop r fqdn k cfqdn issued).1 = some rs →
      ∀ (j : Nat) (issued2 : List Query), k ≤ j →
        (lookupLoop r fqdn j cfqdn issued2).1 = some rs := by
  intro k
  induction k with
  | zero => intro cfqdn issued rs h; simp [lookupLoop] at h
  | succ k ih =>
    intro cfqdn issued rs h j issued2 hj
    obtain ⟨j1, rfl⟩ : ∃ j1, j = j1 + 1 := ⟨j - 1, by omega⟩
    rcases cname_cases r cfqdn with hs | ⟨t, ts, ht⟩
    · rw [lookupLoop_break r fqdn k cfqdn issued hs] at h
      rw [lookupLoop_break r fqdn j1 cfqdn issued2 hs]
      exact h
    · rw [lookupLoop_continue r fqdn k cfqdn issued t ts ht] at h
      rw [lookupLoop_continue r fqdn j1 cfqdn issued2 t ts ht]
      exact ih _ _ rs h j1 _ (by omega)

theorem lookup_deterministic (r : Resolver) (fqdn : String) (k j : Nat)
    (rs1 rs2 : List result) (h1 : lookup r fqdn k = some rs1) (h2 : lookup r fqdn j = some rs2) :
    rs1 = rs2 := by
  unfold lookup at h1 h2
  have a := lookupLoop_mono r fqdn k fqdn [] rs1 h1 (max k j) [] (le_max_left k j)
  have b := lookupLoop_mono r fqdn j fqdn [] rs2 h2 (max k j) [] (le_max_right k j)
  rw [a] at b
  exact Option.some.inj b

/-! ## The pipeline: lemmas -/

theorem total_set (g : WorkerState → Nat) (b : WorkerState) :
    ∀ (ws : List WorkerState) (i : Nat) (a : WorkerState), ws[i]? = some a →
      total g (ws.set i b) + g a = total g ws + g b := by
  intro ws
  induction ws with
  | nil => intro i a h; simp at h
  | cons w ws ih =>
    intro i a h
    cases i with
    | zero =>
      simp at h
      subst h
      simp [total]
      omega
    | succ i =>
      simp at h
      have := ih i a h
      simp [total] at this ⊢
      omega

theorem total_replicate (g : WorkerState → Nat) (w : WorkerState) (n : Nat) :
    total g (List.replicate n w) = n * g w := by
  induction n with
  | zero => simp [total]
  | succ n ih =>
    simp only [total] at ih
    simp [total, List.replicate_succ, ih]
    ring

theorem doneCount_le (ws : List WorkerState) : doneCount ws ≤ ws.length := by
  induction ws with
  | nil => simp [doneCount, total]
  | cons w ws ih =>
    simp only [doneCount, total] at ih
    simp only [doneCount, total, List.map_cons, List.sum_cons, List.length_cons]
    split <;> omega

theorem doneCount_full (ws : List WorkerState) (h : doneCount ws = ws.length) :
    ∀ (j : Nat) (w : WorkerState), ws[j]? = some w → w = WorkerState.done := by
  induction ws with
  | nil => intro j w hw; simp at hw
  | cons a ws ih =>
    have hle := doneCount_le ws
    simp only [doneCount, total] at ih hle
    simp only [doneCount, total, List.map_cons, List.sum_cons, List.length_cons] at h
    intro j w hw
    cases j with
    | zero =>
      simp at hw
      subst hw
      by_contra hne
      simp [hne] at h
      omega
    | succ j =>
      simp at hw
      refine ih ?_ j w hw
      split at h <;> omega

theorem doneCount_missing (ws : List WorkerState) (h : doneCount ws < ws.length) :
    ∃ (j : Nat) (w : WorkerState), ws[j]? = some w ∧ w ≠ WorkerState.done := by
  induction ws with
  | nil => simp at h
  | cons a ws ih =>
    by_cases ha : a = WorkerState.done
    · have h2 : doneCount ws < ws.length := by
        simp only [doneCount, total, List.map_cons, List.sum_cons, List.length_cons, ha] at h
        simp only [doneCount, total]
        simp at h
        omega
      obtain ⟨j, w, hj, hw⟩ := ih h2
      exact ⟨j + 1, w, by simpa using hj, hw⟩
    · exact ⟨0, a, by simp, ha⟩

theorem heldCount_pos (x : String) :
    ∀ (ws : List WorkerState) (j : Nat) (w : WorkerState), ws[j]? = some w → held w = some x →
      0 < heldCount x ws := by
  intro ws
  induction ws with
  | nil => intro j w hw; simp at hw
  | cons a ws ih =>
    intro j w hw hx
    cases j with
    | zero =>
      simp at hw
      subst hw
      simp [heldCount, total, hx]
    | succ j =>
      simp at hw
      have := ih j w hw hx
      simp only [heldCount, total] at this
      simp only [heldCount, total, List.map_cons, List.sum_cons]
      omega

theorem workerSignals_snoc (hist : List Action) (a : Action) :
    workerSignals (hist ++ [a])
      = workerSignals hist + (match a with | Action.workerSignal _ => 1 | _ => 0) := by
  cases a <;> simp [workerSignals, List.countP_append]

theorem workerSignalsOf_snoc (j : Nat) (hist : List Action) (a : Action) :
    workerSignalsOf j (hist ++ [a])
      = workerSignalsOf j hist + (if a = Action.workerSignal j then 1 else 0) := by
  simp [workerSignalsOf, List.count_append, List.count_singleton]

theorem aggSignals_snoc (hist : List Action) (a : Action) :
    aggSignals (hist ++ [a]) = aggSignals hist + (if a = Action.aggSignal then 1 else 0) := by
  simp [aggSignals, List.count_append, List.count_singleton]

theorem getElem?_set_iff (ws : List WorkerState) (i : Nat) (a b : WorkerState)
    (hi : ws[i]? = some a) (j : Nat) (w : WorkerState) :
    (ws.set i b)[j]? = some w ↔ (j = i ∧ w = b) ∨ (j ≠ i ∧ ws[j]? = some w) := by
  have hlt : i < ws.length := by
    by_contra hge
    rw [List.getElem?_eq_none (by omega)] at hi
    cases hi
  rw [List.getElem?_set]
  by_cases hij : i = j
  · subst hij
    simp [hlt, eq_comm]
  · have : j ≠ i := fun h => hij h.symm
    simp [hij, this]

theorem Inv_init (r : Resolver) (W : Nat) (domain : String) (words : List String) :
    Inv r W domain words [] [] (init W words) := by
  refine
    { len := by simp [init]
      noPanic := rfl
      cap := by simp [init]
      scan := ?_
      wait := by intro i h; simp [init] at h
      wagg := by intro h; simp [init] at h
      fin := by intro h; simp [init] at h
      cnt := by simp [init, doneCount, total_replicate, workerSignals]
      sigOf := ?_
      exited := ?_
      batch := ?_
      content := ?_ }
  · intro rest h
    simp [init] at h
    subst h
    simp [init, workerSignals, aggSignals]
  · intro j
    simp [init, workerSignalsOf, List.getElem?_replicate]
  · intro j h
    simp [init, List.getElem?_replicate] at h
  · intro j f rs h
    simp [init, List.getElem?_replicate] at h
  · refine ⟨[], ?_, by simp, by simp [init], by simp⟩
    intro x
    simp [init, heldCount, total_replicate, held, restOf]

theorem Inv_mainSend (r : Resolver) (W : Nat) (domain : String) (words : List String)
    (hist : List Action) (arr : List (String × List result))
    (c c1 : Config) (h : Inv r W domain words hist arr c)
    (hs : step r W domain c Action.mainSend = some c1) :
    Inv r W domain words (hist ++ [Action.mainSend]) arr c1 := by
  simp only [step, h.noPanic, Bool.false_eq_true, if_false] at hs
  split at hs
  · rename_i line rest hm
    obtain ⟨h1, h2, h3, h4, h5, h6⟩ := h.scan _ hm
    simp [h2] at hs
    obtain ⟨hlen, rfl⟩ := hs
    refine
      { len := h.len
        noPanic := rfl
        cap := by simp; omega
        scan := ?_
        wait := by intro i hm1; simp at hm1
        wagg := by intro hm1; simp at hm1
        fin := by intro hm1; simp at hm1
        cnt := by simpa [workerSignals_snoc] using h.cnt
        sigOf := by intro j; simpa [workerSignalsOf_snoc] using h.sigOf j
        exited := ?_
        batch := h.batch
        content := ?_ }
    · intro rest1 hm1
      simp at hm1
      subst hm1
      simp only [List.length_cons] at h1
      exact ⟨by omega, rfl, h3, h4, by simp [workerSignals_snoc, h5],
        by simp [aggSignals_snoc, h6]⟩
    · intro j hj
      have := (h.exited j hj).1
      rw [h2] at this
      cases this
    · obtain ⟨log, hc, hl, hr, harr⟩ := h.content
      refine ⟨log, ?_, hl, hr, harr⟩
      intro x
      have := hc x
      simp only [hm, restOf, List.map_cons, List.count_cons, List.count_append,
        List.count_nil] at this ⊢
      omega
  · simp at hs

theorem Inv_mainCloseFqdns (r : Resolver) (W : Nat) (domain : String) (words : List String)
    (hist : List Action) (arr : List (String × List result))
    (c c1 : Config) (h : Inv r W domain words hist arr c)
    (hs : step r W domain c Action.mainCloseFqdns = some c1) :
    Inv r W domain words (hist ++ [Action.mainCloseFqdns]) arr c1 := by
  simp only [step, h.noPanic, Bool.false_eq_true, if_false] at hs
  split at hs
  · rename_i hm
    obtain ⟨h1, h2, h3, h4, h5, h6⟩ := h.scan _ hm
    simp [h2] at hs
    subst hs
    have hnone : ∀ j : Nat, ¬ (c.workers[j]? = some WorkerState.signalling ∨
        c.workers[j]? = some WorkerState.done) := by
      intro j hj
      have := (h.exited j hj).1
      rw [h2] at this
      cases this
    refine
      { len := h.len
        noPanic := rfl
        cap := h.cap
        scan := by intro rest hm1; simp at hm1
        wait := ?_
        wagg := by intro hm1; simp at hm1
        fin := by intro hm1; simp at hm1
        cnt := by simpa [workerSignals_snoc] using h.cnt
        sigOf := by intro j; simpa [workerSignalsOf_snoc] using h.sigOf j
        exited := by intro j hj; exact absurd hj (hnone j)
        batch := h.batch
        content := ?_ }
    · intro i hm1
      simp at hm1
      subst hm1
      exact ⟨rfl, h3, h4, by simp [workerSignals_snoc, h5], by simp [aggSignals_snoc, h6]⟩
    · obtain ⟨log, hc, hl, hr, harr⟩ := h.content
      refine ⟨log, ?_, hl, hr, harr⟩
      intro x
      have := hc x
      simp only [hm, restOf, List.map_nil, List.count_nil] at this ⊢
      omega
  · simp at hs

theorem Inv_mainCloseGather (r : Resolver) (W : Nat) (domain : String) (words : List String)
    (hist : List Action) (arr : List (String × List result))
    (c c1 : Config) (h : Inv r W domain words hist arr c)
    (hs : step r W domain c Action.mainCloseGather = some c1) :
    Inv r W domain words (hist ++ [Action.mainCloseGather]) arr c1 := by
  simp only [step, h.noPanic, Bool.false_eq_true, if_false] at hs
  split at hs
  · rename_i i hm
    obtain ⟨h1, h2, h3, h4, h5⟩ := h.wait _ hm
    simp [h2] at hs
    obtain ⟨hi, rfl⟩ := hs
    have hle := doneCount_le c.workers
    rw [h.cnt, h.len, h4] at hle
    have hiW : i = W := by omega
    refine
      { len := h.len
        noPanic := rfl
        cap := h.cap
        scan := by intro rest hm1; simp at hm1
        wait := by intro i hm1; simp at hm1
        wagg := ?_
        fin := by intro hm1; simp at hm1
        cnt := by simpa [workerSignals_snoc] using h.cnt
        sigOf := by intro j; simpa [workerSignalsOf_snoc] using h.sigOf j
        exited := h.exited
        batch := h.batch
        content := ?_ }
    · intro _
      refine ⟨h1, rfl, ?_, by simp [workerSignals_snoc, h4, hiW], by simp [aggSignals_snoc, h5]⟩
      rw [h3]
      simp
    · obtain ⟨log, hc, hl, hr, harr⟩ := h.content
      refine ⟨log, ?_, hl, hr, harr⟩
      intro x
      have := hc x
      simp only [hm, restOf, List.map_nil, List.count_nil] at this ⊢
      omega
  · simp at hs

theorem set_done_iff (ws : List WorkerState) (i : Nat) (a b : WorkerState)
    (hi : ws[i]? = some a) (ha : a ≠ WorkerState.done) (hb : b ≠ WorkerState.done) (j : Nat) :
    (ws.set i b)[j]? = some WorkerState.done ↔ ws[j]? = some WorkerState.done := by
  rw [getElem?_set_iff ws i a b hi]
  constructor
  · rintro (⟨_, h⟩ | ⟨_, h⟩)
    · exact absurd h.symm hb
    · exact h
  · intro h
    refine Or.inr ⟨?_, h⟩
    intro hji
    subst hji
    rw [hi] at h
    exact ha (Option.some.inj h)

theorem doneCount_set_other (ws : List WorkerState) (i : Nat) (a b : WorkerState)
    (hi : ws[i]? = some a) (ha : a ≠ WorkerState.done) (hb : b ≠ WorkerState.done) :
    doneCount (ws.set i b) = doneCount ws := by
  have := total_set (fun w => if w = WorkerState.done then 1 else 0) b ws i a hi
  simp only [ha, hb, if_false] at this
  simpa [doneCount] using this

theorem heldCount_set (x : String) (ws : List WorkerState) (i : Nat) (a b : WorkerState)
    (hi : ws[i]? = some a) :
    heldCount x (ws.set i b) + (if held a = some x then 1 else 0)
      = heldCount x ws + (if held b = some x then 1 else 0) :=
  total_set (fun w => if held w = some x then 1 else 0) b ws i a hi

/-- Once `gather` is closed every worker has delivered its completion signal. -/
theorem Inv.all_done {r : Resolver} {W : Nat} {domain : String} {words : List String}
    {hist : List Action} {arr : List (String × List result)}
    {c : Config} (h : Inv r W domain words hist arr c)
    (hg : c.gatherClosed = true) :
    ∀ (j : Nat) (w : WorkerState), c.workers[j]? = some w → w = WorkerState.done := by
  have hW : workerSignals hist = W := by
    cases hm : c.main with
    | scanning rest =>
      have := (h.scan rest hm).2.2.1
      rw [hg] at this
      cases this
    | waiting i =>
      have := (h.wait i hm).2.1
      rw [hg] at this
      cases this
    | waitingAgg => exact (h.wagg hm).2.2.2.1
    | finished => exact (h.fin hm).2.2.2.1
  apply doneCount_full
  rw [h.cnt, hW, h.len]

/-- A step of worker `i` other than the delivery of its completion signal
preserves the invariant, given the facts about what the step changes. -/
theorem Inv_worker_move {r : Resolver} {W : Nat} {domain : String} {words : List String}
    {hist : List Action} {arr : List (String × List result)}
    {c : Config} (h : Inv r W domain words hist arr c)
    (i : Nat) (a b : WorkerState) (hw : c.workers[i]? = some a)
    (ha : a ≠ WorkerState.done) (hb : b ≠ WorkerState.done)
    (act : Action)
    (hsig : workerSignals (hist ++ [act]) = workerSignals hist)
    (hsigOf : ∀ j, workerSignalsOf j (hist ++ [act]) = workerSignalsOf j hist)
    (hagg : aggSignals (hist ++ [act]) = aggSignals hist)
    (arr1 : List (String × List result))
    (fq : List String) (hcap : fq.length ≤ W) (res : List result)
    (hex : ∀ j : Nat, ((c.workers.set i b)[j]? = some WorkerState.signalling ∨
        (c.workers.set i b)[j]? = some WorkerState.done) → c.fqdnsClosed = true ∧ fq = [])
    (hbatch : ∀ fqdn rs, b = WorkerState.sending fqdn rs →
      (∃ k, lookup r fqdn k = some rs) ∧ 0 < rs.length)
    (hcont : ∃ log : List (String × List result),
      (∀ x, (log.map Prod.fst).count x + heldCount x (c.workers.set i b) + fq.count x
          + ((restOf c.main).map (candidate domain)).count x
        = (words.map (candidate domain)).count x) ∧
      (∀ e ∈ log, ∃ k, lookup r e.1 k = some e.2) ∧
      res = (log.map Prod.snd).flatten ∧
      log.filter (fun e => decide (0 < e.2.length)) = arr1) :
    Inv r W domain words (hist ++ [act]) arr1
      { main := c.main, workers := c.workers.set i b, agg := c.agg, fqdns := fq,
        fqdnsClosed := c.fqdnsClosed, gatherClosed := c.gatherClosed, results := res,
        panicked := false } := by
  refine
    { len := by simp [h.len]
      noPanic := rfl
      cap := hcap
      scan := by
        intro rest1 hm1
        simpa [hsig, hagg] using h.scan rest1 hm1
      wait := by
        intro j hm1
        simpa [hsig, hagg] using h.wait j hm1
      wagg := by
        intro hm1
        simpa [hsig, hagg] using h.wagg hm1
      fin := by
        intro hm1
        simpa [hsig, hagg] using h.fin hm1
      cnt := ?_
      sigOf := ?_
      exited := hex
      batch := ?_
      content := hcont }
  · show doneCount (c.workers.set i b) = _
    rw [doneCount_set_other c.workers i a b hw ha hb, hsig]
    exact h.cnt
  · intro j
    have e := set_done_iff c.workers i a b hw ha hb j
    show _ = if (c.workers.set i b)[j]? = _ then 1 else 0
    simp only [e, hsigOf]
    exact h.sigOf j
  · intro j f rs hj
    change (c.workers.set i b)[j]? = _ at hj
    rw [getElem?_set_iff c.workers i a b hw] at hj
    rcases hj with ⟨_, h1⟩ | ⟨_, h1⟩
    · exact hbatch f rs h1.symm
    · exact h.batch j f rs h1

theorem Inv_workerRecv (r : Resolver) (W : Nat) (domain : String) (words : List String)
    (hist : List Action) (arr : List (String × List result))
    (c c1 : Config) (i : Nat) (h : Inv r W domain words hist arr c)
    (hs : step r W domain c (Action.workerRecv i) = some c1) :
    Inv r W domain words (hist ++ [Action.workerRecv i]) arr c1 := by
  simp only [step, h.noPanic, Bool.false_eq_true, if_false] at hs
  split at hs
  · rename_i hw
    split at hs
    · rename_i fqdn rest hf
      simp at hs
      subst hs
      have hnone : ∀ j : Nat, ¬ (c.workers[j]? = some WorkerState.signalling ∨
          c.workers[j]? = some WorkerState.done) := by
        intro j hj
        have := (h.exited j hj).2
        rw [hf] at this
        cases this
      refine Inv_worker_move h i WorkerState.recv (WorkerState.resolving fqdn) hw (by simp)
        (by simp) _ (by simp [workerSignals_snoc]) (by simp [workerSignalsOf_snoc])
        (by simp [aggSignals_snoc]) arr rest
        (by have := h.cap; rw [hf] at this; simp at this; omega) c.results ?_ (by simp) ?_
      · intro j hj
        exfalso
        apply hnone j
        rw [getElem?_set_iff c.workers i _ _ hw, getElem?_set_iff c.workers i _ _ hw] at hj
        rcases hj with (⟨_, h1⟩ | ⟨_, h1⟩) | (⟨_, h1⟩ | ⟨_, h1⟩)
        · cases h1
        · exact Or.inl h1
        · cases h1
        · exact Or.inr h1
      · obtain ⟨log, hc, hl, hr, harr⟩ := h.content
        refine ⟨log, ?_, hl, hr, harr⟩
        intro x
        have h1 := hc x
        have h2 := heldCount_set x c.workers i _ (WorkerState.resolving fqdn) hw
        simp only [hf, List.count_cons, held] at h1 h2
        simp only [beq_iff_eq, Option.some.injEq] at h1 h2 ⊢
        simp at h2
        omega
    · rename_i hf
      split at hs
      · rename_i hcl
        simp at hs
        subst hs
        have := Inv_worker_move h i WorkerState.recv WorkerState.signalling hw (by simp)
          (by simp) (Action.workerRecv i) (by simp [workerSignals_snoc])
          (by simp [workerSignalsOf_snoc])
          (by simp [aggSignals_snoc]) arr c.fqdns h.cap c.results (fun _ _ => ⟨hcl, hf⟩) (by simp) (by
            obtain ⟨log, hc, hl, hr, harr⟩ := h.content
            refine ⟨log, ?_, hl, hr, harr⟩
            intro x
            have h1 := hc x
            have h2 := heldCount_set x c.workers i _ WorkerState.signalling hw
            simp [held] at h2
            omega)
        exact this
      · simp at hs
  · simp at hs

theorem Inv_workerLookup (r : Resolver) (W : Nat) (domain : String) (words : List String)
    (hist : List Action) (arr : List (String × List result))
    (c c1 : Config) (i k : Nat) (h : Inv r W domain words hist arr c)
    (hs : step r W domain c (Action.workerLookup i k) = some c1) :
    Inv r W domain words (hist ++ [Action.workerLookup i k]) arr c1 := by
  simp only [step, h.noPanic, Bool.false_eq_true, if_false] at hs
  have hexit : ∀ (b : WorkerState) (a : WorkerState), c.workers[i]? = some a →
      b ≠ WorkerState.signalling → b ≠ WorkerState.done →
      ∀ j : Nat, ((c.workers.set i b)[j]? = some WorkerState.signalling ∨
        (c.workers.set i b)[j]? = some WorkerState.done) →
        c.fqdnsClosed = true ∧ c.fqdns = [] := by
    intro b a hw hb1 hb2 j hj
    rw [getElem?_set_iff c.workers i _ _ hw, getElem?_set_iff c.workers i _ _ hw] at hj
    rcases hj with (⟨_, h1⟩ | ⟨_, h1⟩) | (⟨_, h1⟩ | ⟨_, h1⟩)
    · exact absurd h1.symm hb1
    · exact h.exited j (Or.inl h1)
    · exact absurd h1.symm hb2
    · exact h.exited j (Or.inr h1)
  split at hs
  · rename_i fqdn hw
    split at hs
    · rename_i rs hlk
      split at hs
      · rename_i hpos
        simp at hs
        subst hs
        have := Inv_worker_move h i _ (WorkerState.sending fqdn rs) hw (by simp)
          (by simp) (Action.workerLookup i k) (by simp [workerSignals_snoc])
          (by simp [workerSignalsOf_snoc])
          (by simp [aggSignals_snoc]) arr c.fqdns h.cap c.results
          (hexit _ _ hw (by simp) (by simp))
          (by
            intro f rs1 hb
            simp at hb
            obtain ⟨rfl, rfl⟩ := hb
            exact ⟨⟨k, hlk⟩, hpos⟩)
          (by
            obtain ⟨log, hc, hl, hr, harr⟩ := h.content
            refine ⟨log, ?_, hl, hr, harr⟩
            intro x
            have h1 := hc x
            have h2 := heldCount_set x c.workers i _ (WorkerState.sending fqdn rs) hw
            simp only [held] at h2
            omega)
        exact this
      · rename_i hpos
        simp at hs
        subst hs
        have hrs : rs = [] := by
          cases rs with
          | nil => rfl
          | cons p ps => simp at hpos
        have := Inv_worker_move h i _ WorkerState.recv hw (by simp)
          (by simp) (Action.workerLookup i k) (by simp [workerSignals_snoc])
          (by simp [workerSignalsOf_snoc])
          (by simp [aggSignals_snoc]) arr c.fqdns h.cap c.results
          (hexit _ _ hw (by simp) (by simp))
          (by simp)
          (by
            obtain ⟨log, hc, hl, hr, harr⟩ := h.content
            refine ⟨log ++ [(fqdn, rs)], ?_, ?_, ?_⟩
            · intro x
              have h1 := hc x
              have h2 := heldCount_set x c.workers i _ WorkerState.recv hw
              simp only [held] at h2
              simp only [List.map_append, List.count_append, List.map_cons, List.map_nil,
                List.count_cons, List.count_nil, beq_iff_eq]
              simp only [Option.some.injEq] at h2
              simp at h2
              omega
            · intro e he
              rw [List.mem_append] at he
              rcases he with he | he
              · exact hl e he
              · simp at he
                subst he
                exact ⟨k, hlk⟩
            · refine ⟨by simp [hr, hrs], ?_⟩
              simp [List.filter_append, hrs, harr])
        exact this
    · simp at hs
  · simp at hs

theorem Inv_workerSend (r : Resolver) (W : Nat) (domain : String) (words : List String)
    (hist : List Action) (arr : List (String × List result))
    (c c1 : Config) (i : Nat) (h : Inv r W domain words hist arr c)
    (hs : step r W domain c (Action.workerSend i) = some c1) :
    Inv r W domain words (hist ++ [Action.workerSend i])
      (arr ++ (delivered c (Action.workerSend i)).toList) c1 := by
  simp only [step, h.noPanic, Bool.false_eq_true, if_false] at hs
  split at hs
  · rename_i fqdn rs hw
    have hg : c.gatherClosed = false := by
      cases hgc : c.gatherClosed with
      | false => rfl
      | true =>
        have := h.all_done hgc i _ hw
        cases this
    simp only [hg, Bool.false_eq_true, if_false] at hs
    split at hs
    · rename_i hagg
      simp at hs
      subst hs
      have := Inv_worker_move h i _ WorkerState.recv hw (by simp)
        (by simp) (Action.workerSend i) (by simp [workerSignals_snoc])
        (by simp [workerSignalsOf_snoc])
        (by simp [aggSignals_snoc]) (arr ++ [(fqdn, rs)]) c.fqdns h.cap (c.results ++ rs)
        (by
          intro j hj
          rw [getElem?_set_iff c.workers i _ _ hw, getElem?_set_iff c.workers i _ _ hw] at hj
          rcases hj with (⟨_, h1⟩ | ⟨_, h1⟩) | (⟨_, h1⟩ | ⟨_, h1⟩)
          · cases h1
          · exact h.exited j (Or.inl h1)
          · cases h1
          · exact h.exited j (Or.inr h1))
        (by simp)
        (by
          obtain ⟨log, hc, hl, hr, harr⟩ := h.content
          refine ⟨log ++ [(fqdn, rs)], ?_, ?_, ?_⟩
          · intro x
            have h1 := hc x
            have h2 := heldCount_set x c.workers i _ WorkerState.recv hw
            simp only [held] at h2
            simp only [List.map_append, List.count_append, List.map_cons, List.map_nil,
              List.count_cons, List.count_nil, beq_iff_eq]
            simp only [Option.some.injEq] at h2
            simp at h2
            omega
          · intro e he
            rw [List.mem_append] at he
            rcases he with he | he
            · exact hl e he
            · simp at he
              subst he
              exact (h.batch i fqdn rs hw).1
          · have hpos := (h.batch i fqdn rs hw).2
            refine ⟨by simp [hr], ?_⟩
            simp [List.filter_append, harr, hpos])
      have hd : delivered c (Action.workerSend i) = some (fqdn, rs) := by
        simp [delivered, h.noPanic, hw, hg, hagg]
      rw [hd]
      simpa [hg] using this
    · simp at hs
  · simp at hs

theorem Inv_workerSignal (r : Resolver) (W : Nat) (domain : String) (words : List String)
    (hist : List Action) (arr : List (String × List result))
    (c c1 : Config) (i : Nat) (h : Inv r W domain words hist arr c)
    (hs : step r W domain c (Action.workerSignal i) = some c1) :
    Inv r W domain words (hist ++ [Action.workerSignal i]) arr c1 := by
  simp only [step, h.noPanic, Bool.false_eq_true, if_false] at hs
  split at hs
  · rename_i hw
    split at hs
    · rename_i m hm
      simp at hs
      subst hs
      cases hmain : c.main with
      | scanning rest => simp [hmain, mainRecvTracker] at hm
      | finished => simp [hmain, mainRecvTracker] at hm
      | waitingAgg =>
        have := h.all_done (h.wagg hmain).2.1 i _ hw
        cases this
      | waiting n =>
        simp [hmain, mainRecvTracker] at hm
        obtain ⟨hn, rfl⟩ := hm
        obtain ⟨h1, h2, h3, h4, h5⟩ := h.wait n hmain
        have hcnt := total_set (fun w => if w = WorkerState.done then 1 else 0)
          WorkerState.done c.workers i _ hw
        simp at hcnt
        refine
          { len := by simp [h.len]
            noPanic := rfl
            cap := h.cap
            scan := by intro rest hm1; simp at hm1
            wait := ?_
            wagg := by intro hm1; simp at hm1
            fin := by intro hm1; simp at hm1
            cnt := ?_
            sigOf := ?_
            exited := ?_
            batch := ?_
            content := ?_ }
        · intro n1 hm1
          simp at hm1
          subst hm1
          exact ⟨h1, h2, h3, by simp [workerSignals_snoc, h4], by simp [aggSignals_snoc, h5]⟩
        · show doneCount (c.workers.set i WorkerState.done) = _
          have := h.cnt
          simp only [doneCount] at this ⊢
          rw [workerSignals_snoc]
          simp only
          omega
        · intro j
          show _ = if (c.workers.set i WorkerState.done)[j]? = some WorkerState.done then 1 else 0
          have e := getElem?_set_iff c.workers i _ WorkerState.done hw j WorkerState.done
          have old := h.sigOf j
          rw [workerSignalsOf_snoc]
          by_cases hji : j = i
          · subst hji
            have hl : (c.workers.set j WorkerState.done)[j]? = some WorkerState.done :=
              e.2 (Or.inl ⟨rfl, rfl⟩)
            simp [hl, hw] at old ⊢
            exact old
          · have hiff : (c.workers.set i WorkerState.done)[j]? = some WorkerState.done ↔
                c.workers[j]? = some WorkerState.done := by
              rw [e]
              constructor
              · rintro (⟨h6, _⟩ | ⟨_, h6⟩)
                · exact absurd h6 hji
                · exact h6
              · intro h6
                exact Or.inr ⟨hji, h6⟩
            have hne : ¬ (i = j) := fun h6 => hji h6.symm
            simp only [hiff]
            simpa [hne] using old
        · intro j hj
          change (c.workers.set i _)[j]? = _ ∨ (c.workers.set i _)[j]? = _ at hj
          rw [getElem?_set_iff c.workers i _ _ hw, getElem?_set_iff c.workers i _ _ hw] at hj
          rcases hj with (⟨_, h6⟩ | ⟨_, h6⟩) | (⟨_, h6⟩ | ⟨_, h6⟩)
          · cases h6
          · exact h.exited j (Or.inl h6)
          · exact h.exited i (Or.inl hw)
          · exact h.exited j (Or.inr h6)
        · intro j f rs hj
          change (c.workers.set i _)[j]? = _ at hj
          rw [getElem?_set_iff c.workers i _ _ hw] at hj
          rcases hj with ⟨_, h6⟩ | ⟨_, h6⟩
          · cases h6
          · exact h.batch j f rs h6
        · obtain ⟨log, hc, hl, hr, harr⟩ := h.content
          refine ⟨log, ?_, hl, hr, harr⟩
          intro x
          have h6 := hc x
          have h7 := heldCount_set x c.workers i _ WorkerState.done hw
          simp only [held] at h7
          simp only [hmain, restOf] at h6
          show _ + heldCount x (c.workers.set i WorkerState.done) + _ + _ = _
          simp only [restOf]
          simp at h7
          omega
    · simp at hs
  · simp at hs

theorem Inv_aggExit (r : Resolver) (W : Nat) (domain : String) (words : List String)
    (hist : List Action) (arr : List (String × List result))
    (c c1 : Config) (h : Inv r W domain words hist arr c)
    (hs : step r W domain c Action.aggExit = some c1) :
    Inv r W domain words (hist ++ [Action.aggExit]) arr c1 := by
  simp only [step, h.noPanic, Bool.false_eq_true, if_false] at hs
  split at hs
  · rename_i hcond
    obtain ⟨ha, hg⟩ := hcond
    simp at hs
    subst hs
    refine
      { len := h.len
        noPanic := rfl
        cap := h.cap
        scan := ?_
        wait := ?_
        wagg := ?_
        fin := ?_
        cnt := by simpa [workerSignals_snoc] using h.cnt
        sigOf := by intro j; simpa [workerSignalsOf_snoc] using h.sigOf j
        exited := h.exited
        batch := h.batch
        content := h.content }
    · intro rest hm
      have := (h.scan rest hm).2.2.1
      rw [hg] at this
      cases this
    · intro n hm
      have := (h.wait n hm).2.1
      rw [hg] at this
      cases this
    · intro hm
      obtain ⟨h1, h2, h3, h4, h5⟩ := h.wagg hm
      exact ⟨h1, h2, by simp, by simp [workerSignals_snoc, h4], by simp [aggSignals_snoc, h5]⟩
    · intro hm
      have := (h.fin hm).2.2.1
      rw [ha] at this
      cases this
  · simp at hs

theorem Inv_aggSignal (r : Resolver) (W : Nat) (domain : String) (words : List String)
    (hist : List Action) (arr : List (String × List result))
    (c c1 : Config) (h : Inv r W domain words hist arr c)
    (hs : step r W domain c Action.aggSignal = some c1) :
    Inv r W domain words (hist ++ [Action.aggSignal]) arr c1 := by
  simp only [step, h.noPanic, Bool.false_eq_true, if_false] at hs
  split at hs
  · rename_i ha
    split at hs
    · rename_i m hm
      simp at hs
      subst hs
      cases hmain : c.main with
      | scanning rest => simp [hmain, mainRecvTracker] at hm
      | finished => simp [hmain, mainRecvTracker] at hm
      | waiting n =>
        have := (h.wait n hmain).2.2.1
        rw [ha] at this
        cases this
      | waitingAgg =>
        simp [hmain, mainRecvTracker] at hm
        subst hm
        obtain ⟨h1, h2, h3, h4, h5⟩ := h.wagg hmain
        refine
          { len := h.len
            noPanic := rfl
            cap := h.cap
            scan := by intro rest hm1; simp at hm1
            wait := by intro n hm1; simp at hm1
            wagg := by intro hm1; simp at hm1
            fin := ?_
            cnt := by simpa [workerSignals_snoc] using h.cnt
            sigOf := by intro j; simpa [workerSignalsOf_snoc] using h.sigOf j
            exited := h.exited
            batch := h.batch
            content := ?_ }
        · intro _
          exact ⟨h1, h2, rfl, by simp [workerSignals_snoc, h4], by simp [aggSignals_snoc, h5]⟩
        · obtain ⟨log, hc, hl, hr, harr⟩ := h.content
          refine ⟨log, ?_, hl, hr, harr⟩
          intro x
          have h6 := hc x
          simp only [hmain, restOf] at h6
          simpa [restOf] using h6
    · simp at hs
  · simp at hs

/-- Every step of the program preserves the invariant. -/
theorem Inv_step (r : Resolver) (W : Nat) (domain : String) (words : List String)
    (hist : List Action) (arr : List (String × List result))
    (c c1 : Config) (a : Action) (h : Inv r W domain words hist arr c)
    (hs : step r W domain c a = some c1) :
    Inv r W domain words (hist ++ [a]) (arr ++ (delivered c a).toList) c1 := by
  cases a with
  | mainSend => simpa [delivered] using Inv_mainSend r W domain words hist arr c c1 h hs
  | mainCloseFqdns =>
    simpa [delivered] using Inv_mainCloseFqdns r W domain words hist arr c c1 h hs
  | mainCloseGather =>
    simpa [delivered] using Inv_mainCloseGather r W domain words hist arr c c1 h hs
  | workerRecv i =>
    simpa [delivered] using Inv_workerRecv r W domain words hist arr c c1 i h hs
  | workerLookup i k =>
    simpa [delivered] using Inv_workerLookup r W domain words hist arr c c1 i k h hs
  | workerSend i => exact Inv_workerSend r W domain words hist arr c c1 i h hs
  | workerSignal i =>
    simpa [delivered] using Inv_workerSignal r W domain words hist arr c c1 i h hs
  | aggExit => simpa [delivered] using Inv_aggExit r W domain words hist arr c c1 h hs
  | aggSignal => simpa [delivered] using Inv_aggSignal r W domain words hist arr c c1 h hs

/-- The invariant holds along every schedule, the batches that arrive along
the schedule being added to those that arrived before. -/
theorem Inv_run (r : Resolver) (W : Nat) (domain : String) (words : List String) :
    ∀ (sched hist : List Action) (arr : List (String × List result)) (c c1 : Config),
      Inv r W domain words hist arr c → run r W domain c sched = some c1 →
      Inv r W domain words (hist ++ sched) (arr ++ arrivals r W domain c sched) c1 := by
  intro sched
  induction sched with
  | nil =>
    intro hist arr c c1 h hr
    simp [run] at hr
    subst hr
    simpa [arrivals] using h
  | cons a sched ih =>
    intro hist arr c c1 h hr
    simp only [run] at hr
    split at hr
    · rename_i c2 hs
      have := ih (hist ++ [a]) _ c2 c1 (Inv_step r W domain words hist arr c c2 a h hs) hr
      simpa [arrivals, hs] using this
    · cases hr

/-- The invariant holds in every state reached from the initial state. -/
theorem Inv_reachable (r : Resolver) (W : Nat) (domain : String) (words : List String)
    (sched : List Action) (c : Config)
    (hr : run r W domain (init W words) sched = some c) :
    Inv r W domain words sched (arrivals r W domain (init W words) sched) c := by
  simpa using
    Inv_run r W domain words sched [] [] (init W words) c (Inv_init r W domain words) hr

theorem rank_set (ws : List WorkerState) (i : Nat) (a b : WorkerState)
    (hi : ws[i]? = some a) :
    total workerRank (ws.set i b) + workerRank a = total workerRank ws + workerRank b :=
  total_set workerRank b ws i a hi

theorem mainRecvTracker_rank (W : Nat) (m m1 : MainState)
    (h : mainRecvTracker W m = some m1) : mainRank W m1 < mainRank W m := by
  cases m with
  | scanning rest => simp [mainRecvTracker] at h
  | finished => simp [mainRecvTracker] at h
  | waitingAgg =>
    simp [mainRecvTracker] at h
    subst h
    simp [mainRank]
  | waiting n =>
    simp [mainRecvTracker] at h
    obtain ⟨hn, rfl⟩ := h
    simp only [mainRank]
    omega

/-- Every step lowers the bound `stepsLeft`: no schedule runs forever. -/
theorem step_decreases (r : Resolver) (W : Nat) (domain : String) (c c1 : Config) (a : Action)
    (hs : step r W domain c a = some c1) : stepsLeft W c1 < stepsLeft W c := by
  cases hp : c.panicked with
  | true => cases a <;> simp [step, hp] at hs
  | false =>
    cases a with
    | mainSend =>
      simp only [step, hp, Bool.false_eq_true, if_false] at hs
      split at hs
      · rename_i line rest hm
        split at hs
        · simp at hs
          subst hs
          simp [stepsLeft, hp]
        · split at hs
          · simp at hs
            subst hs
            simp [stepsLeft, hp, hm, mainRank]
            omega
          · simp at hs
      · simp at hs
    | mainCloseFqdns =>
      simp only [step, hp, Bool.false_eq_true, if_false] at hs
      split at hs
      · rename_i hm
        split at hs
        · simp at hs
          subst hs
          simp [stepsLeft, hp]
        · simp at hs
          subst hs
          simp [stepsLeft, hp, hm, mainRank]
      · simp at hs
    | mainCloseGather =>
      simp only [step, hp, Bool.false_eq_true, if_false] at hs
      split at hs
      · rename_i n hm
        split at hs
        · simp at hs
        · split at hs
          · simp at hs
            subst hs
            simp [stepsLeft, hp]
          · simp at hs
            subst hs
            simp [stepsLeft, hp, hm, mainRank]
            omega
      · simp at hs
    | workerRecv i =>
      simp only [step, hp, Bool.false_eq_true, if_false] at hs
      split at hs
      · rename_i hw
        split at hs
        · rename_i fqdn rest hf
          simp at hs
          subst hs
          have := rank_set c.workers i _ (WorkerState.resolving fqdn) hw
          simp [workerRank] at this
          simp [stepsLeft, hp, hf]
          omega
        · split at hs
          · simp at hs
            subst hs
            have := rank_set c.workers i _ WorkerState.signalling hw
            simp [workerRank] at this
            simp [stepsLeft, hp]
            omega
          · simp at hs
      · simp at hs
    | workerLookup i k =>
      simp only [step, hp, Bool.false_eq_true, if_false] at hs
      split at hs
      · rename_i fqdn hw
        split at hs
        · rename_i rs hlk
          split at hs
          · simp at hs
            subst hs
            have := rank_set c.workers i _ (WorkerState.sending fqdn rs) hw
            simp [workerRank] at this
            simp [stepsLeft, hp]
            omega
          · simp at hs
            subst hs
            have := rank_set c.workers i _ WorkerState.recv hw
            simp [workerRank] at this
            simp [stepsLeft, hp]
            omega
        · simp at hs
      · simp at hs
    | workerSend i =>
      simp only [step, hp, Bool.false_eq_true, if_false] at hs
      split at hs
      · rename_i fqdn rs hw
        split at hs
        · simp at hs
          subst hs
          simp [stepsLeft, hp]
        · split at hs
          · simp at hs
            subst hs
            have := rank_set c.workers i _ WorkerState.recv hw
            simp [workerRank] at this
            simp [stepsLeft, hp]
            omega
          · simp at hs
      · simp at hs
    | workerSignal i =>
      simp only [step, hp, Bool.false_eq_true, if_false] at hs
      split at hs
      · rename_i hw
        split at hs
        · rename_i m hm
          simp at hs
          subst hs
          have := rank_set c.workers i _ WorkerState.done hw
          simp [workerRank] at this
          have hm2 := mainRecvTracker_rank W c.main m hm
          simp [stepsLeft, hp]
          omega
        · simp at hs
      · simp at hs
    | aggExit =>
      simp only [step, hp, Bool.false_eq_true, if_false] at hs
      split at hs
      · rename_i hcond
        simp at hs
        subst hs
        simp [stepsLeft, hp, hcond.1, aggRank]
      · simp at hs
    | aggSignal =>
      simp only [step, hp, Bool.false_eq_true, if_false] at hs
      split at hs
      · rename_i ha
        split at hs
        · rename_i m hm
          simp at hs
          subst hs
          have hm2 := mainRecvTracker_rank W c.main m hm
          simp [stepsLeft, hp, ha, aggRank]
          omega
        · simp at hs
      · simp at hs

theorem run_length (r : Resolver) (W : Nat) (domain : String) :
    ∀ (sched : List Action) (c c1 : Config), run r W domain c sched = some c1 →
      sched.length + stepsLeft W c1 ≤ stepsLeft W c := by
  intro sched
  induction sched with
  | nil =>
    intro c c1 hr
    simp [run] at hr
    subst hr
    simp
  | cons a sched ih =>
    intro c c1 hr
    simp only [run] at hr
    split at hr
    · rename_i c2 hs
      have h1 := ih c2 c1 hr
      have h2 := step_decreases r W domain c c2 a hs
      simp only [List.length_cons]
      omega
    · cases hr

theorem stepsLeft_init (W : Nat) (words : List String) :
    stepsLeft W (init W words) = 4 * words.length + 3 * W + 6 := by
  simp [stepsLeft, init, mainRank, aggRank, total_replicate, workerRank]
  omega

/-- A candidate held by a worker comes from the wordlist. -/
theorem Inv.held_candidate {r : Resolver} {W : Nat} {domain : String} {words : List String}
    {hist : List Action} {arr : List (String × List result)}
    {c : Config} (h : Inv r W domain words hist arr c)
    (j : Nat) (w : WorkerState) (hw : c.workers[j]? = some w) (x : String)
    (hx : held w = some x) : ∃ line ∈ words, candidate domain line = x := by
  obtain ⟨log, hc, _, _, _⟩ := h.content
  have h1 := hc x
  have h2 := heldCount_pos x c.workers j w hw hx
  have h3 : 0 < (words.map (candidate domain)).count x := by omega
  rw [List.count_pos_iff] at h3
  simpa using h3

/-- A worker that has not delivered its completion signal can take a step,
as long as `gather` is open, the aggregator is receiving, the lookups return,
and either `fqdns` holds a candidate or is closed, or the worker is not
waiting to receive. -/
theorem Inv.worker_progress {r : Resolver} {W : Nat} {domain : String} {words : List String}
    {hist : List Action} {arr : List (String × List result)}
    {c : Config} (h : Inv r W domain words hist arr c)
    (hterm : ∀ line ∈ words, ∃ k rs, lookup r (candidate domain line) k = some rs)
    (j : Nat) (w : WorkerState) (hw : c.workers[j]? = some w)
    (hg : c.gatherClosed = false) (ha : c.agg = AggState.ranging)
    (hrecv : w = WorkerState.recv → c.fqdns ≠ [] ∨ c.fqdnsClosed = true)
    (hsig : w = WorkerState.signalling → ∃ m, mainRecvTracker W c.main = some m)
    (hd : w ≠ WorkerState.done) :
    ∃ a c1, step r W domain c a = some c1 := by
  cases w with
  | done => exact absurd rfl hd
  | recv =>
    refine ⟨Action.workerRecv j, ?_⟩
    cases hf : c.fqdns with
    | cons f rest => exact Option.isSome_iff_exists.mp (by simp [step, h.noPanic, hw, hf])
    | nil =>
      rcases hrecv rfl with h1 | h1
      · exact absurd hf h1
      · exact Option.isSome_iff_exists.mp (by simp [step, h.noPanic, hw, hf, h1])
  | resolving f =>
    obtain ⟨line, hl, rfl⟩ := h.held_candidate j _ hw f rfl
    obtain ⟨k, rs, hk⟩ := hterm line hl
    refine ⟨Action.workerLookup j k, ?_⟩
    apply Option.isSome_iff_exists.mp
    by_cases hpos : rs.length > 0
    · simp only [step, h.noPanic, hw, hk, hpos]; simp
    · simp only [step, h.noPanic, hw, hk, hpos]; simp
  | sending f rs =>
    exact ⟨Action.workerSend j, Option.isSome_iff_exists.mp (by simp [step, h.noPanic, hw, hg, ha])⟩
  | signalling =>
    obtain ⟨m, hm⟩ := hsig rfl
    exact ⟨Action.workerSignal j, Option.isSome_iff_exists.mp (by simp [step, h.noPanic, hw, hm])⟩

/-- No deadlock: with at least one worker (or nothing to scan) and lookups
that return, some step is enabled in every reachable state in which `main`
has not yet got past its last receive. -/
theorem Inv.progress {r : Resolver} {W : Nat} {domain : String} {words : List String}
    {hist : List Action} {arr : List (String × List result)}
    {c : Config} (h : Inv r W domain words hist arr c)
    (hW : 0 < W ∨ words = [])
    (hterm : ∀ line ∈ words, ∃ k rs, lookup r (candidate domain line) k = some rs)
    (hne : c.main ≠ MainState.finished) :
    ∃ a c1, step r W domain c a = some c1 := by
  cases hm : c.main with
  | finished => exact absurd hm hne
  | scanning rest =>
    obtain ⟨h1, h2, h3, h4, h5, h6⟩ := h.scan rest hm
    cases rest with
    | nil => exact ⟨Action.mainCloseFqdns, Option.isSome_iff_exists.mp (by simp [step, h.noPanic, hm, h2])⟩
    | cons line rest =>
      have hWpos : 0 < W := by
        rcases hW with hW | hW
        · exact hW
        · subst hW
          simp at h1
      by_cases hlen : c.fqdns.length < W
      · exact ⟨Action.mainSend, Option.isSome_iff_exists.mp (by simp [step, h.noPanic, hm, h2, hlen])⟩
      · have hlt : 0 < c.workers.length := by rw [h.len]; exact hWpos
        have hw : c.workers[0]? = some (c.workers.get ⟨0, hlt⟩) := by
          simp [List.getElem?_eq_getElem hlt]
        refine h.worker_progress hterm 0 _ hw h3 h4 ?_ ?_ ?_
        · intro _
          left
          intro hnil
          rw [hnil] at hlen
          simp at hlen
          omega
        · intro hsg
          rw [hsg] at hw
          have := (h.exited 0 (Or.inl hw)).1
          rw [h2] at this
          cases this
        · intro hdn
          rw [hdn] at hw
          have := (h.exited 0 (Or.inr hw)).1
          rw [h2] at this
          cases this
  | waiting n =>
    obtain ⟨h1, h2, h3, h4, h5⟩ := h.wait n hm
    by_cases hn : n < W
    · have hlt : doneCount c.workers < c.workers.length := by
        rw [h.cnt, h4, h.len]
        exact hn
      obtain ⟨j, w, hw, hd⟩ := doneCount_missing c.workers hlt
      refine h.worker_progress hterm j w hw h2 h3 (fun _ => Or.inr h1) ?_ hd
      intro _
      exact ⟨MainState.waiting (n + 1), by simp [hm, mainRecvTracker, hn]⟩
    · exact ⟨Action.mainCloseGather, Option.isSome_iff_exists.mp (by simp [step, h.noPanic, hm, h2, hn])⟩
  | waitingAgg =>
    obtain ⟨h1, h2, h3, h4, h5⟩ := h.wagg hm
    cases ha : c.agg with
    | done => exact absurd ha h3
    | ranging => exact ⟨Action.aggExit, Option.isSome_iff_exists.mp (by simp [step, h.noPanic, ha, h2])⟩
    | signalling =>
      exact ⟨Action.aggSignal, Option.isSome_iff_exists.mp (by simp [step, h.noPanic, ha, hm, mainRecvTracker])⟩

/-- From every reachable state some schedule leads to the state in which
`main` reads the results. -/
theorem Inv.completes {r : Resolver} {W : Nat} {domain : String} {words : List String}
    (hW : 0 < W ∨ words = [])
    (hterm : ∀ line ∈ words, ∃ k rs, lookup r (candidate domain line) k = some rs) :
    ∀ (n : Nat) (hist : List Action) (arr : List (String × List result)) (c : Config), Inv r W domain words hist arr c →
      stepsLeft W c ≤ n →
      ∃ sched c1, run r W domain c sched = some c1 ∧ c1.main = MainState.finished := by
  intro n
  induction n with
  | zero =>
    intro hist arr c h hn
    by_cases hfin : c.main = MainState.finished
    · exact ⟨[], c, rfl, hfin⟩
    · obtain ⟨a, c1, hs⟩ := h.progress hW hterm hfin
      have := step_decreases r W domain c c1 a hs
      omega
  | succ n ih =>
    intro hist arr c h hn
    by_cases hfin : c.main = MainState.finished
    · exact ⟨[], c, rfl, hfin⟩
    · obtain ⟨a, c1, hs⟩ := h.progress hW hterm hfin
      have hdec := step_decreases r W domain c c1 a hs
      obtain ⟨sched, c2, hr, hf⟩ :=
        ih (hist ++ [a]) _ c1 (Inv_step r W domain words hist arr c c1 a h hs) (by omega)
      exact ⟨a :: sched, c2, by simp [run, hs, hr], hf⟩

/-- Once `main` is past its last receive nothing runs any more: no goroutine
can take a step, so `results` is never written again. -/
theorem Inv.finished_terminal {r : Resolver} {W : Nat} {domain : String}
    {words : List String} {hist : List Action} {arr : List (String × List result)}
    {c : Config}
    (h : Inv r W domain words hist arr c) (hm : c.main = MainState.finished) (a : Action) :
    step r W domain c a = none := by
  obtain ⟨h1, h2, h3, h4, h5⟩ := h.fin hm
  have hall := h.all_done h2
  cases hs : step r W domain c a with
  | none => rfl
  | some c1 =>
    exfalso
    cases a with
    | mainSend => simp [step, hm] at hs
    | mainCloseFqdns => simp [step, hm] at hs
    | mainCloseGather => simp [step, hm] at hs
    | workerRecv i =>
      simp only [step, h.noPanic, Bool.false_eq_true, if_false] at hs
      split at hs
      · rename_i hw
        cases hall i _ hw
      · simp at hs
    | workerLookup i k =>
      simp only [step, h.noPanic, Bool.false_eq_true, if_false] at hs
      split at hs
      · rename_i f hw
        cases hall i _ hw
      · simp at hs
    | workerSend i =>
      simp only [step, h.noPanic, Bool.false_eq_true, if_false] at hs
      split at hs
      · rename_i f rs hw
        cases hall i _ hw
      · simp at hs
    | workerSignal i =>
      simp only [step, h.noPanic, Bool.false_eq_true, if_false] at hs
      split at hs
      · rename_i hw
        cases hall i _ hw
      · simp at hs
    | aggExit => simp [step, h3] at hs
    | aggSignal => simp [step, h3] at hs

/-- The results gathered so far are the batches of distinct wordlist entries. -/
theorem Inv.results_log {r : Resolver} {W : Nat} {domain : String}
    {words : List String} {hist : List Action} {arr : List (String × List result)}
    {c : Config}
    (h : Inv r W domain words hist arr c) (hm : c.main = MainState.finished) :
    ∃ log : List (String × List result),
      (log.map Prod.fst).Perm (words.map (candidate domain)) ∧
      (∀ e ∈ log, ∃ k, lookup r e.1 k = some e.2) ∧
      c.results = (log.map Prod.snd).flatten ∧
      log.filter (fun e => decide (0 < e.2.length)) = arr := by
  obtain ⟨h1, h2, h3, h4, h5⟩ := h.fin hm
  have hall := h.all_done h2
  obtain ⟨log, hc, hl, hr, harr⟩ := h.content
  refine ⟨log, ?_, hl, hr, harr⟩
  rw [List.perm_iff_count]
  intro x
  have hx := hc x
  have hheld : heldCount x c.workers = 0 := by
    have : ∀ ws : List WorkerState,
        (∀ (j : Nat) (w : WorkerState), ws[j]? = some w → w = WorkerState.done) →
        heldCount x ws = 0 := by
      intro ws
      induction ws with
      | nil => intro _; simp [heldCount, total]
      | cons w ws ih =>
        intro hws
        have hw0 : w = WorkerState.done := hws 0 w (by simp)
        have := ih (fun j w1 hj => hws (j + 1) w1 (by simpa using hj))
        simp only [heldCount, total] at this
        simp only [heldCount, total, List.map_cons, List.sum_cons]
        rw [this, hw0]
        simp [held]
    exact this c.workers hall
  have hfq : c.fqdns = [] := by
    cases hws : c.workers with
    | nil =>
      have h6 := h.len
      have h7 := h.cap
      rw [hws] at h6
      simp at h6
      rw [← h6] at h7
      exact List.length_eq_zero.mp (by omega)
    | cons w ws =>
      have hw0 : c.workers[0]? = some w := by simp [hws]
      have := hall 0 w hw0
      subst this
      exact (h.exited 0 (Or.inr hw0)).2
  simp only [hm, restOf, hheld, hfq, List.map_nil, List.count_nil] at hx
  omega

/-- Every gathered pair was returned by `lookup` for the candidate it names. -/
theorem Inv.results_sound {r : Resolver} {W : Nat} {domain : String}
    {words : List String} {hist : List Action} {arr : List (String × List result)}
    {c : Config}
    (h : Inv r W domain words hist arr c) :
    ∀ p ∈ c.results, ∃ k rs, lookup r p.Hostname k = some rs ∧ p ∈ rs := by
  obtain ⟨log, _, hl, hr, _⟩ := h.content
  intro p hp
  rw [hr, List.mem_flatten] at hp
  obtain ⟨b, hb, hpb⟩ := hp
  rw [List.mem_map] at hb
  obtain ⟨e, he, rfl⟩ := hb
  obtain ⟨k, hk⟩ := hl e he
  have hhost : p.Hostname = e.1 := lookupLoop_hostname r e.1 k e.1 [] e.2 hk p hpb
  rw [hhost]
  exact ⟨k, e.2, hk, hpb⟩

/-- When `main` reads the results they are the concatenation of what `lookup`
returns for the candidates, taken in some order. -/
theorem Inv.results_order {r : Resolver} {W : Nat} {domain : String}
    {words : List String} {hist : List Action} {arr : List (String × List result)}
    {c : Config}
    (h : Inv r W domain words hist arr c) (hm : c.main = MainState.finished)
    (lk : String → List result)
    (hlk : ∀ line ∈ words, ∃ k,
      lookup r (candidate domain line) k = some (lk (candidate domain line))) :
    ∃ order : List String, order.Perm (words.map (candidate domain)) ∧
      c.results = (order.map lk).flatten := by
  obtain ⟨log, hperm, hl, hr, _⟩ := h.results_log hm
  refine ⟨log.map Prod.fst, hperm, ?_⟩
  rw [hr]
  congr 1
  rw [List.map_map]
  apply List.map_congr_left
  intro e he
  have hmem : e.1 ∈ words.map (candidate domain) :=
    hperm.subset (List.mem_map.mpr ⟨e, he, rfl⟩)
  rw [List.mem_map] at hmem
  obtain ⟨line, hline, hcand⟩ := hmem
  obtain ⟨k1, hk1⟩ := hlk line hline
  obtain ⟨k2, hk2⟩ := hl e he
  rw [hcand] at hk1
  exact lookup_deterministic r e.1 k2 k1 _ _ hk2 hk1

theorem flatten_filter_nonempty (log : List (String × List result)) :
    ((log.filter (fun e => decide (0 < e.2.length))).map Prod.snd).flatten
      = (log.map Prod.snd).flatten := by
  induction log with
  | nil => rfl
  | cons e log ih =>
    by_cases he : 0 < e.2.length
    · simp [List.filter_cons, he, ih]
    · have hnil : e.2 = [] := List.length_eq_zero.mp (by omega)
      simp [List.filter_cons, he, ih, hnil]

/-- The collection is, at every moment, the concatenation of the batches
received so far, in the order in which they arrived. -/
theorem Inv.results_arrivals {r : Resolver} {W : Nat} {domain : String}
    {words : List String} {hist : List Action} {arr : List (String × List result)}
    {c : Config} (h : Inv r W domain words hist arr c) :
    c.results = (arr.map Prod.snd).flatten := by
  obtain ⟨log, _, _, hr, harr⟩ := h.content
  rw [← harr, flatten_filter_nonempty, hr]

/-- Every batch that has arrived is the non-empty value returned by `lookup`
for a candidate of the wordlist. -/
theorem Inv.arrivals_sound {r : Resolver} {W : Nat} {domain : String}
    {words : List String} {hist : List Action} {arr : List (String × List result)}
    {c : Config} (h : Inv r W domain words hist arr c) :
    ∀ e ∈ arr, e.1 ∈ words.map (candidate domain) ∧
      (∃ k, lookup r e.1 k = some e.2) ∧ 0 < e.2.length := by
  obtain ⟨log, hc, hl, _, harr⟩ := h.content
  intro e he
  rw [← harr, List.mem_filter] at he
  obtain ⟨hmem, hpos⟩ := he
  refine ⟨?_, hl e hmem, by simpa using hpos⟩
  have h1 := hc e.1
  have h2 : 0 < (log.map Prod.fst).count e.1 :=
    List.count_pos_iff.mpr (List.mem_map.mpr ⟨e, hmem, rfl⟩)
  exact List.count_pos_iff.mp (by omega)

/-- When `main` reads the results, the candidates whose batches arrived are
exactly the candidates with a non-empty lookup, each as often as the wordlist
has it. -/
theorem Inv.arrivals_perm {r : Resolver} {W : Nat} {domain : String}
    {words : List String} {hist : List Action} {arr : List (String × List result)}
    {c : Config} (h : Inv r W domain words hist arr c) (hm : c.main = MainState.finished)
    (lk : String → List result)
    (hlk : ∀ line ∈ words, ∃ k,
      lookup r (candidate domain line) k = some (lk (candidate domain line))) :
    (arr.map Prod.fst).Perm
      ((words.map (candidate domain)).filter (fun f => decide (0 < (lk f).length))) := by
  obtain ⟨log, hperm, hl, _, harr⟩ := h.results_log hm
  have hsame : ∀ e ∈ log, e.2 = lk e.1 := by
    intro e he
    have hmem : e.1 ∈ words.map (candidate domain) :=
      hperm.subset (List.mem_map.mpr ⟨e, he, rfl⟩)
    rw [List.mem_map] at hmem
    obtain ⟨line, hline, hcand⟩ := hmem
    obtain ⟨k1, hk1⟩ := hlk line hline
    obtain ⟨k2, hk2⟩ := hl e he
    rw [hcand] at hk1
    exact lookup_deterministic r e.1 k2 k1 _ _ hk2 hk1
  have hfilter : arr.map Prod.fst
      = (log.map Prod.fst).filter (fun f => decide (0 < (lk f).length)) := by
    rw [← harr, List.filter_map]
    congr 1
    apply List.filter_congr
    intro e he
    simp [hsame e he]
  rw [hfilter]
  exact hperm.filter _

/-! ## The chain resolver: results -/

/-- C1: when the first CNAME targets lead from `fqdn = c 0` through
`c 1, ..., c n` and the CNAME query for `c n` fails or yields no targets,
`lookup fqdn` returns (within `n + 1` loop iterations), and when the A query
for `c n` succeeds with `ips` it returns exactly one pair per address, in
order, each with host name `fqdn`; the other CNAME targets play no role. -/
theorem lookup_follows_chain (r : Resolver) (fqdn : String) (n : Nat) (c : Nat → String)
    (h0 : c 0 = fqdn)
    (hchain : ∀ i, i < n → ∃ ts, lookupCNAME r (c i) = .ok (c (i + 1) :: ts))
    (hend : (∃ e, lookupCNAME r (c n) = .error e) ∨ lookupCNAME r (c n) = .ok []) :
    (∃ rs, ∀ k, n + 1 ≤ k → lookup r fqdn k = some rs) ∧
    (∀ ips, lookupA r (c n) = .ok ips → ∀ k, n + 1 ≤ k →
      lookup r fqdn k
        = some (ips.map (fun ip => ({ IPAddress := ip, Hostname := fqdn } : result)))) := by
  have key : ∀ k, n + 1 ≤ k → lookup r fqdn k = some (chainOutcome r fqdn (c n)) := by
    intro k hk
    subst h0
    have h := lookupLoop_chain r (c 0) n c [] k hchain hend hk
    unfold lookup
    rw [h]
  refine ⟨⟨_, key⟩, ?_⟩
  intro ips hips k hk
  rw [key k hk]
  simp [chainOutcome, hips, pairsFor]

/-- Scenario B: `foo.example.com` is an alias of `bar.example.net.`, which has
the address `1.2.3.4`; the single pair returned names `foo.example.com`. -/
theorem lookup_follows_chain_witness :
    lookupCNAME resolverB "foo.example.com"
        = .ok ["bar.example.net.", "decoy.example.org."] ∧
      lookupA resolverB "bar.example.net." = .ok ["1.2.3.4"] ∧
      lookup resolverB "foo.example.com" 2
        = some [{ IPAddress := "1.2.3.4", Hostname := "foo.example.com" }] :=
  ⟨by rfl, by rfl,
    (lookup_follows_chain resolverB "foo.example.com" 1 namesB (by rfl)
      (by
        intro i hi
        have hi0 : i = 0 := by omega
        subst hi0
        exact ⟨["decoy.example.org."], by rfl⟩)
      (Or.inl ⟨DNSError.noAnswer, by rfl⟩)).2 ["1.2.3.4"] (by rfl) 2 (by decide)⟩

/-- C2: whenever `lookup fqdn` returns, every pair of the returned sequence
has `Hostname` equal to the argument `fqdn`, however many CNAME redirections
were followed. -/
theorem lookup_hostname_original (r : Resolver) (fqdn : String) (k : Nat) (rs : List result)
    (h : lookup r fqdn k = some rs) : ∀ p ∈ rs, p.Hostname = fqdn :=
  lookupLoop_hostname r fqdn k fqdn [] rs h

/-- In scenario B the pair returned for `foo.example.com` carries that name. -/
theorem lookup_hostname_original_witness :
    lookup resolverB "foo.example.com" 5
        = some [{ IPAddress := "1.2.3.4", Hostname := "foo.example.com" }] ∧
      ∀ p ∈ [({ IPAddress := "1.2.3.4", Hostname := "foo.example.com" } : result)],
        p.Hostname = "foo.example.com" :=
  ⟨by rfl, lookup_hostname_original resolverB "foo.example.com" 5 _ (by rfl)⟩

/-- C5 as stated fails: the CNAME query for `x.example.com` ends in a transport
error, yet `lookup` goes on to issue the A query for the same name and returns
a pair. -/
theorem transport_error_cname_not_final :
    lookupCNAME resolverFlaky "x.example.com" = .error (DNSError.transport "i/o timeout") ∧
      lookupQueries resolverFlaky "x.example.com" 1
        = [{ name := "x.example.com", qtype := QType.TypeCNAME },
           { name := "x.example.com", qtype := QType.TypeA }] ∧
      lookup resolverFlaky "x.example.com" 1
        = some [{ IPAddress := "192.0.2.1", Hostname := "x.example.com" }] :=
  ⟨by rfl, by rfl, by rfl⟩

/-- C5, amended: along a chain `fqdn = c 0, ..., c n` of first CNAME targets,
(1) when the CNAME following stops at `c n` and the A query for `c n` ends in a
transport error, `lookup fqdn` returns the empty sequence; (2) when the CNAME
query for `c n` ends in a transport error, no further CNAME query is issued:
`lookup` issues the A query for `c n` and returns its outcome (one pair per
address when it succeeds, nothing when it fails). -/
theorem lookup_transport_error (r : Resolver) (fqdn : String) (n : Nat) (c : Nat → String)
    (h0 : c 0 = fqdn)
    (hchain : ∀ i, i < n → ∃ ts, lookupCNAME r (c i) = .ok (c (i + 1) :: ts)) :
    (((∃ e, lookupCNAME r (c n) = .error e) ∨ lookupCNAME r (c n) = .ok []) →
      ∀ e, lookupA r (c n) = .error (DNSError.transport e) →
        ∀ k, n + 1 ≤ k → lookup r fqdn k = some []) ∧
    (∀ e, lookupCNAME r (c n) = .error (DNSError.transport e) →
      ∀ k, n + 1 ≤ k →
        lookupQueries r fqdn k = chainQueries c n ∧
        lookup r fqdn k = some (chainOutcome r fqdn (c n))) := by
  subst h0
  constructor
  · intro hend e he k hk
    have h := lookupLoop_chain r (c 0) n c [] k hchain hend hk
    unfold lookup
    rw [h]
    simp [chainOutcome, he]
  · intro e he k hk
    have h := lookupLoop_chain r (c 0) n c [] k hchain (Or.inl ⟨_, he⟩) hk
    unfold lookup lookupQueries
    rw [h]
    simp

/-- With every CNAME query timing out, `lookup` issues one CNAME query and one
A query for the name and returns the outcome of the A query. -/
theorem lookup_transport_error_witness :
    lookupCNAME resolverFlaky "x.example.com" = .error (DNSError.transport "i/o timeout") ∧
      lookupQueries resolverFlaky "x.example.com" 3
        = chainQueries (fun _ => "x.example.com") 0 ∧
      lookup resolverFlaky "x.example.com" 3
        = some (chainOutcome resolverFlaky "x.example.com" "x.example.com") :=
  ⟨by rfl,
    (lookup_transport_error resolverFlaky "x.example.com" 0 (fun _ => "x.example.com") rfl
      (by intro i hi; omega)).2 "i/o timeout" (by rfl) 3 (by decide)⟩

/-- C6: for a response that arrives without transport error and carries at
least one answer record, `lookupA` succeeds with the address strings of the
A-typed answers, in answer-section order, and `lookupCNAME` succeeds with the
targets of the CNAME-typed answers, in answer-section order; answers of every
other type are skipped. -/
theorem lookup_records_by_type (r : Resolver) (name : String) :
    (∀ answer, answer ≠ [] → r.Exchange (r.Fqdn name) QType.TypeA = .ok answer →
      lookupA r name = .ok (answersA answer)) ∧
    (∀ answer, answer ≠ [] → r.Exchange (r.Fqdn name) QType.TypeCNAME = .ok answer →
      lookupCNAME r name = .ok (answersCNAME answer)) :=
  ⟨fun answer hne hx => lookupA_ok r name answer hx hne,
    fun answer hne hx => lookupCNAME_ok r name answer hx hne⟩

/-- Mixed answer sections: only the two addresses, and only the two targets,
come back, in order. -/
theorem lookup_records_by_type_witness :
    lookupA resolverMixed "x.example.com" = .ok ["192.0.2.1", "192.0.2.2"] ∧
      lookupCNAME resolverMixed "x.example.com" = .ok ["a.example.net.", "b.example.net."] :=
  ⟨(lookup_records_by_type resolverMixed "x.example.com").1
      [RR.CNAME "alias.example.net.", RR.A ⟨192, 0, 2, 1⟩, RR.other 46, RR.A ⟨192, 0, 2, 2⟩]
      (by simp) (by rfl),
    (lookup_records_by_type resolverMixed "x.example.com").2
      [RR.CNAME "a.example.net.", RR.A ⟨192, 0, 2, 1⟩, RR.CNAME "b.example.net."]
      (by simp) (by rfl)⟩

/-- C7 as stated fails: a response whose answer section holds one record of
another type has zero records of the requested kind, yet `lookupA` and
`lookupCNAME` succeed with an empty list instead of the "no answer" error. -/
theorem other_records_only_no_error :
    resolverOther.Exchange (resolverOther.Fqdn "www.example.com") QType.TypeA
        = .ok [RR.CNAME "alias.example.net."] ∧
      answersA [RR.CNAME "alias.example.net."] = [] ∧
      lookupA resolverOther "www.example.com" = .ok [] ∧
      resolverOther.Exchange (resolverOther.Fqdn "www.example.com") QType.TypeCNAME
        = .ok [RR.A ⟨192, 0, 2, 1⟩] ∧
      answersCNAME [RR.A ⟨192, 0, 2, 1⟩] = [] ∧
      lookupCNAME resolverOther "www.example.com" = .ok [] :=
  ⟨by rfl, by rfl, by rfl, by rfl, by rfl, by rfl⟩

/-- C7, amended: for a response that arrives without transport error,
`lookupA` (and likewise `lookupCNAME`) returns the "no answer" error exactly
when the answer section is empty, that is when it carries zero answer records
of any type; when the section is non-empty but holds no record of the
requested kind, the call succeeds with an empty list. -/
theorem no_answer_iff_empty_section (r : Resolver) (name : String) (answer : List RR) :
    (r.Exchange (r.Fqdn name) QType.TypeA = .ok answer →
      (lookupA r name = .error DNSError.noAnswer ↔ answer = []) ∧
      (answer ≠ [] → answersA answer = [] → lookupA r name = .ok [])) ∧
    (r.Exchange (r.Fqdn name) QType.TypeCNAME = .ok answer →
      (lookupCNAME r name = .error DNSError.noAnswer ↔ answer = []) ∧
      (answer ≠ [] → answersCNAME answer = [] → lookupCNAME r name = .ok [])) := by
  constructor
  · intro hx
    constructor
    · constructor
      · intro h
        by_contra hne
        rw [lookupA_ok r name answer hx hne] at h
        cases h
      · intro h
        subst h
        exact lookupA_nil r name hx
    · intro hne hz
      rw [lookupA_ok r name answer hx hne, hz]
  · intro hx
    constructor
    · constructor
      · intro h
        by_contra hne
        rw [lookupCNAME_ok r name answer hx hne] at h
        cases h
      · intro h
        subst h
        exact lookupCNAME_nil r name hx
    · intro hne hz
      rw [lookupCNAME_ok r name answer hx hne, hz]

/-- A name without records gets the "no answer" error from `lookupA`; an
answer section holding only a CNAME record gets an empty success. -/
theorem no_answer_iff_empty_section_witness :
    lookupA resolverA "doesnotexist123.example.com" = .error DNSError.noAnswer ∧
      lookupA resolverOther "www.example.com" = .ok [] :=
  ⟨((no_answer_iff_empty_section resolverA "doesnotexist123.example.com" []).1 (by rfl)).1.2 rfl,
    ((no_answer_iff_empty_section resolverOther "www.example.com"
      [RR.CNAME "alias.example.net."]).1 (by rfl)).2 (by simp) (by rfl)⟩

/-- C10: `lookup` has no hop limit and no cycle detection: when following the
first CNAME target from `fqdn = c 0` always finds a next name `c (i + 1)`,
then for every bound `k` on the number of loop iterations `lookup fqdn` has
not returned after `k` iterations, and the `k` queries issued so far are all
CNAME queries (no A query). -/
theorem lookup_never_returns (r : Resolver) (fqdn : String) (c : Nat → String)
    (h0 : c 0 = fqdn)
    (hc : ∀ i, ∃ ts, lookupCNAME r (c i) = .ok (c (i + 1) :: ts)) :
    ∀ k, lookup r fqdn k = none ∧
      (lookupQueries r fqdn k).length = k ∧
      ∀ q ∈ lookupQueries r fqdn k, q.qtype = QType.TypeCNAME := by
  intro k
  subst h0
  have h := lookupLoop_endless r (c 0) k c [] hc
  unfold lookup lookupQueries
  rw [h]
  refine ⟨rfl, by simp, ?_⟩
  intro q hq
  simp only [List.nil_append, List.mem_map] at hq
  obtain ⟨i, _, rfl⟩ := hq
  rfl

/-- The CNAME cycle `a.example.com. -> b.example.com. -> a.example.com.`:
after a thousand iterations `lookup` has not returned. -/
theorem lookup_never_returns_witness :
    lookupCNAME resolverCycle "a.example.com." = .ok ["b.example.com."] ∧
      lookupCNAME resolverCycle "b.example.com." = .ok ["a.example.com."] ∧
      lookup resolverCycle "a.example.com." 1000 = none :=
  ⟨by rfl, by rfl,
    (lookup_never_returns resolverCycle "a.example.com." cycleNames (by rfl)
      (by
        intro i
        rcases Nat.mod_two_eq_zero_or_one i with h | h
        · have h1 : (i + 1) % 2 = 1 := by omega
          refine ⟨[], ?_⟩
          simp only [cycleNames, h, h1]
          rfl
        · have h1 : (i + 1) % 2 = 0 := by omega
          refine ⟨[], ?_⟩
          simp only [cycleNames, h, h1]
          rfl) 1000).1⟩

/-! ## The pipeline: results -/

/-- C3: with at least one worker and lookups that all return, the pipeline
can run to completion, and in every interleaving: (1) the collection is at
every moment the concatenation of the batches the aggregator has received
along the schedule, in their order of arrival; (2) every such batch is the
non-empty sequence `lookup` returns for a candidate `line.domain` of the
wordlist, so the pairs of one candidate stay contiguous and in resolver order
and the collection is the concatenation of `lookup` over the candidates in
arrival order; (3) when `main` reads the collection after its last receive,
the candidates whose batches arrived are exactly the candidates with a
non-empty lookup, each as often as the wordlist has it (none lost, none
duplicated), so that the collection is the concatenation of `lookup` over a
reordering of all candidates and, as a multiset, the union of the lookups; an
empty wordlist gives an empty collection. -/
theorem pipeline_results (r : Resolver) (W : Nat) (domain : String) (words : List String)
    (lk : String → List result) (hW : 1 ≤ W)
    (hlk : ∀ line ∈ words, ∃ k,
      lookup r (candidate domain line) k = some (lk (candidate domain line))) :
    (∃ sched c, run r W domain (init W words) sched = some c ∧ c.main = MainState.finished) ∧
    ∀ sched c, run r W domain (init W words) sched = some c →
      c.results = ((arrivals r W domain (init W words) sched).map Prod.snd).flatten ∧
      (∀ e ∈ arrivals r W domain (init W words) sched,
        e.1 ∈ words.map (candidate domain) ∧ e.2 = lk e.1 ∧ e.2 ≠ []) ∧
      c.results
        = (((arrivals r W domain (init W words) sched).map Prod.fst).map lk).flatten ∧
      (c.main = MainState.finished →
        ((arrivals r W domain (init W words) sched).map Prod.fst).Perm
          ((words.map (candidate domain)).filter (fun f => decide (0 < (lk f).length))) ∧
        (∃ order : List String, order.Perm (words.map (candidate domain)) ∧
          c.results = (order.map lk).flatten) ∧
        c.results.Perm ((words.map (fun line => lk (candidate domain line))).flatten) ∧
        (words = [] → c.results = [])) := by
  have hterm : ∀ line ∈ words, ∃ k rs, lookup r (candidate domain line) k = some rs :=
    fun line hl => (hlk line hl).imp fun k hk => ⟨_, hk⟩
  constructor
  · exact Inv.completes (Or.inl hW) hterm _ [] [] (init W words) (Inv_init r W domain words)
      (le_refl _)
  · intro sched c hr
    have h := Inv_reachable r W domain words sched c hr
    have hsound : ∀ e ∈ arrivals r W domain (init W words) sched,
        e.1 ∈ words.map (candidate domain) ∧ e.2 = lk e.1 ∧ e.2 ≠ [] := by
      intro e he
      obtain ⟨hmem, ⟨k2, hk2⟩, hpos⟩ := h.arrivals_sound e he
      refine ⟨hmem, ?_, ?_⟩
      · rw [List.mem_map] at hmem
        obtain ⟨line, hline, hcand⟩ := hmem
        obtain ⟨k1, hk1⟩ := hlk line hline
        rw [hcand] at hk1
        exact lookup_deterministic r e.1 k2 k1 _ _ hk2 hk1
      · intro hnil
        rw [hnil] at hpos
        simp at hpos
    refine ⟨h.results_arrivals, hsound, ?_, ?_⟩
    · rw [h.results_arrivals]
      congr 1
      rw [List.map_map]
      apply List.map_congr_left
      intro e he
      exact (hsound e he).2.1
    · intro hm
      obtain ⟨order, hperm, hres⟩ := h.results_order hm lk hlk
      refine ⟨h.arrivals_perm hm lk hlk, ⟨order, hperm, hres⟩, ?_, ?_⟩
      · rw [hres, ← List.flatMap_def]
        have := hperm.flatMap_right lk
        rw [List.flatMap_def (words.map (candidate domain)), List.map_map] at this
        exact this
      · intro hw
        subst hw
        have : order = [] := by simpa using hperm
        rw [hres, this]
        rfl

/-- Scenario A with two workers: along `scheduleA` the batch of `mail` arrives
before the batch of `www`, nothing arrives for `doesnotexist123`, and the run
ends with exactly these two pairs in that order. -/
theorem pipeline_results_witness :
    run resolverA 2 "example.com" (init 2 wordsA) scheduleA = some finalA ∧
      arrivals resolverA 2 "example.com" (init 2 wordsA) scheduleA
        = [("mail.example.com", [{ IPAddress := "10.0.0.5", Hostname := "mail.example.com" }]),
           ("www.example.com",
             [{ IPAddress := "93.184.216.34", Hostname := "www.example.com" }])] ∧
      finalA.results
        = ((arrivals resolverA 2 "example.com" (init 2 wordsA) scheduleA).map
            Prod.snd).flatten ∧
      finalA.results = [{ IPAddress := "10.0.0.5", Hostname := "mail.example.com" },
                        { IPAddress := "93.184.216.34", Hostname := "www.example.com" }] ∧
      finalA.results.Perm
        ((wordsA.map (fun line => lookupOnce (candidate "example.com" line))).flatten) :=
  have h := (pipeline_results resolverA 2 "example.com" wordsA lookupOnce (by decide)
    (by
      intro line hl
      simp only [wordsA, List.mem_cons, List.mem_singleton, List.not_mem_nil,
        or_false] at hl
      rcases hl with rfl | rfl | rfl <;> exact ⟨1, by rfl⟩)).2
    scheduleA finalA (by rfl)
  ⟨by rfl, by rfl, h.1, rfl, (h.2.2.2 rfl).2.2.1⟩

/-- C4: when the CNAME chain from `fqdn = c 0` ends at `c n` (in particular
`n = 0`: no CNAME at all) and the A query for `c n` fails, `lookup fqdn`
returns the empty sequence, and nothing else; a worker holding `fqdn` goes
back to receiving without sending a batch, no worker is ever about to send a
batch for `fqdn`, and no pair of the collection has `Hostname` equal to
`fqdn`. -/
theorem no_record_no_pair (r : Resolver) (fqdn : String) (n : Nat) (c : Nat → String)
    (h0 : c 0 = fqdn)
    (hchain : ∀ i, i < n → ∃ ts, lookupCNAME r (c i) = .ok (c (i + 1) :: ts))
    (hend : (∃ e, lookupCNAME r (c n) = .error e) ∨ lookupCNAME r (c n) = .ok [])
    (e : DNSError) (hA : lookupA r (c n) = .error e) :
    (∀ k, n + 1 ≤ k → lookup r fqdn k = some []) ∧
    (∀ k rs, lookup r fqdn k = some rs → rs = []) ∧
    (∀ (W : Nat) (domain : String) (cfg : Config) (i k : Nat), cfg.panicked = false →
      cfg.workers[i]? = some (WorkerState.resolving fqdn) → n + 1 ≤ k →
      step r W domain cfg (Action.workerLookup i k)
        = some { cfg with workers := cfg.workers.set i WorkerState.recv }) ∧
    (∀ (W : Nat) (domain : String) (words : List String) (sched : List Action) (cfg : Config),
      run r W domain (init W words) sched = some cfg →
        (∀ (i : Nat) (rs : List result),
          cfg.workers[i]? ≠ some (WorkerState.sending fqdn rs)) ∧
        ∀ p ∈ cfg.results, p.Hostname ≠ fqdn) := by
  have key : ∀ k, n + 1 ≤ k → lookup r fqdn k = some [] := by
    intro k hk
    subst h0
    have h := lookupLoop_chain r (c 0) n c [] k hchain hend hk
    unfold lookup
    rw [h]
    simp [chainOutcome, hA]
  have only : ∀ k rs, lookup r fqdn k = some rs → rs = [] := by
    intro k rs hk
    exact lookup_deterministic r fqdn k (n + 1) rs [] hk (key (n + 1) (le_refl _))
  refine ⟨key, only, ?_, ?_⟩
  · intro W domain cfg i k hp hw hk
    simp [step, hp, hw, key k hk]
  · intro W domain words sched cfg hr
    have h := Inv_reachable r W domain words sched cfg hr
    constructor
    · intro i rs hw
      obtain ⟨⟨k, hk⟩, hpos⟩ := h.batch i fqdn rs hw
      have := only k rs hk
      subst this
      simp at hpos
    · intro p hp hhost
      obtain ⟨k, rs, hk, hmem⟩ := h.results_sound p hp
      rw [hhost] at hk
      have := only k rs hk
      subst this
      simp at hmem

/-- In scenario A the name `doesnotexist123.example.com` has no records:
`lookup` returns nothing for it and the final collection has no pair for it. -/
theorem no_record_no_pair_witness :
    lookupCNAME resolverA "doesnotexist123.example.com" = .error DNSError.noAnswer ∧
      lookupA resolverA "doesnotexist123.example.com" = .error DNSError.noAnswer ∧
      lookup resolverA "doesnotexist123.example.com" 1 = some [] ∧
      ∀ p ∈ finalA.results, p.Hostname ≠ "doesnotexist123.example.com" :=
  have h := no_record_no_pair resolverA "doesnotexist123.example.com" 0
    (fun _ => "doesnotexist123.example.com") rfl (by intro i hi; omega)
    (Or.inl ⟨DNSError.noAnswer, by rfl⟩) DNSError.noAnswer (by rfl)
  ⟨by rfl, by rfl, h.1 1 (by decide),
    (h.2.2.2 2 "example.com" wordsA scheduleA finalA (by rfl)).2⟩

/-- C8: in every reachable state, for every worker count and wordlist: the
program has not panicked (no send on a closed channel); `gather` is closed
only when `main` has received `W` signals from workers and every worker has
delivered its signal; the aggregator leaves its loop only once `gather` is
closed; while `main` is in its loop of `W` receives all signals received so
far come from workers; and when `main` reads `results` it has received the
aggregator's signal, the aggregator is done and no step can follow. -/
theorem gather_close_ordering (r : Resolver) (W : Nat) (domain : String)
    (words : List String) (sched : List Action) (cfg : Config)
    (hr : run r W domain (init W words) sched = some cfg) :
    cfg.panicked = false ∧
    (cfg.gatherClosed = true → workerSignals sched = W ∧
      ∀ (j : Nat) (w : WorkerState), cfg.workers[j]? = some w → w = WorkerState.done) ∧
    (cfg.agg ≠ AggState.ranging → cfg.gatherClosed = true) ∧
    (0 < aggSignals sched → cfg.gatherClosed = true ∧ workerSignals sched = W) ∧
    (∀ i, cfg.main = MainState.waiting i → workerSignals sched = i ∧ aggSignals sched = 0) ∧
    (cfg.main = MainState.finished →
      aggSignals sched = 1 ∧ cfg.agg = AggState.done ∧
      ∀ a, step r W domain cfg a = none) := by
  have h := Inv_reachable r W domain words sched cfg hr
  have hclosed : cfg.gatherClosed = true → workerSignals sched = W := by
    intro hg
    cases hm : cfg.main with
    | scanning rest =>
      have := (h.scan rest hm).2.2.1
      rw [hg] at this
      cases this
    | waiting i =>
      have := (h.wait i hm).2.1
      rw [hg] at this
      cases this
    | waitingAgg => exact (h.wagg hm).2.2.2.1
    | finished => exact (h.fin hm).2.2.2.1
  have hagg : 0 < aggSignals sched → cfg.gatherClosed = true := by
    intro hpos
    cases hm : cfg.main with
    | scanning rest =>
      have := (h.scan rest hm).2.2.2.2.2
      omega
    | waiting i =>
      have := (h.wait i hm).2.2.2.2
      omega
    | waitingAgg =>
      have := (h.wagg hm).2.2.2.2
      omega
    | finished => exact (h.fin hm).2.1
  refine ⟨h.noPanic, fun hg => ⟨hclosed hg, h.all_done hg⟩, ?_,
    fun hpos => ⟨hagg hpos, hclosed (hagg hpos)⟩, ?_, ?_⟩
  · intro ha
    cases hm : cfg.main with
    | scanning rest => exact absurd (h.scan rest hm).2.2.2.1 ha
    | waiting i => exact absurd (h.wait i hm).2.2.1 ha
    | waitingAgg => exact (h.wagg hm).2.1
    | finished => exact (h.fin hm).2.1
  · intro i hm
    exact ⟨(h.wait i hm).2.2.2.1, (h.wait i hm).2.2.2.2⟩
  · intro hm
    exact ⟨(h.fin hm).2.2.2.2, (h.fin hm).2.2.1, h.finished_terminal hm⟩

/-- At the end of `scheduleA` the program has not panicked and the aggregator
has signalled once. -/
theorem gather_close_ordering_witness :
    run resolverA 2 "example.com" (init 2 wordsA) scheduleA = some finalA ∧
      finalA.panicked = false ∧ aggSignals scheduleA = 1 :=
  have h := gather_close_ordering resolverA 2 "example.com" wordsA scheduleA finalA (by rfl)
  ⟨by rfl, h.1, (h.2.2.2.2.2 rfl).1⟩

/-- C9 as stated fails: with zero workers and one candidate (whose lookup
would return) no step is enabled in the initial state and `main` never gets
past `fqdns <- ...`: the program is deadlocked. -/
theorem zero_workers_deadlock :
    (∃ k rs, lookup resolverA (candidate "example.com" "www") k = some rs) ∧
      (init 0 ["www"]).main ≠ MainState.finished ∧
      (∀ a, step resolverA 0 "example.com" (init 0 ["www"]) a = none) := by
  refine ⟨⟨1, _, by rfl⟩, by simp [init], ?_⟩
  intro a
  cases a <;> simp [step, init]

/-- C9, amended: with at least one worker (or an empty wordlist) and lookups
that all return, every schedule is finite (at most `4 * lines + 3 * W + 6`
steps), no reachable state short of the end is deadlocked and the run can
always be completed, the program does not panic; `main` receives at most `W`
signals from workers, at most one from each, and at most one from the
aggregator, and at the end exactly `W`, one from each worker, and exactly one
from the aggregator; a worker signals only once `fqdns` is closed and
drained. -/
theorem pipeline_terminates (r : Resolver) (W : Nat) (domain : String) (words : List String)
    (hW : 0 < W ∨ words = [])
    (hterm : ∀ line ∈ words, ∃ k rs, lookup r (candidate domain line) k = some rs)
    (sched : List Action) (cfg : Config)
    (hr : run r W domain (init W words) sched = some cfg) :
    sched.length ≤ 4 * words.length + 3 * W + 6 ∧
    cfg.panicked = false ∧
    (cfg.main ≠ MainState.finished → ∃ a c1, step r W domain cfg a = some c1) ∧
    (∃ sched1 c1, run r W domain cfg sched1 = some c1 ∧ c1.main = MainState.finished) ∧
    workerSignals sched ≤ W ∧ (∀ i, workerSignalsOf i sched ≤ 1) ∧ aggSignals sched ≤ 1 ∧
    (cfg.main = MainState.finished →
      workerSignals sched = W ∧ (∀ i, i < W → workerSignalsOf i sched = 1) ∧
      aggSignals sched = 1 ∧ ∀ a, step r W domain cfg a = none) ∧
    (∀ j : Nat, (cfg.workers[j]? = some WorkerState.signalling ∨
        cfg.workers[j]? = some WorkerState.done) →
      cfg.fqdnsClosed = true ∧ cfg.fqdns = []) := by
  have h := Inv_reachable r W domain words sched cfg hr
  have hlen := run_length r W domain sched (init W words) cfg hr
  rw [stepsLeft_init] at hlen
  refine ⟨by omega, h.noPanic, h.progress hW hterm,
    Inv.completes hW hterm _ sched _ cfg h (le_refl _), ?_, ?_, ?_, ?_, h.exited⟩
  · rw [← h.cnt, ← h.len]
    exact doneCount_le cfg.workers
  · intro i
    rw [h.sigOf i]
    split <;> omega
  · cases hm : cfg.main with
    | scanning rest =>
      have := (h.scan rest hm).2.2.2.2.2
      omega
    | waiting i =>
      have := (h.wait i hm).2.2.2.2
      omega
    | waitingAgg =>
      have := (h.wagg hm).2.2.2.2
      omega
    | finished =>
      have := (h.fin hm).2.2.2.2
      omega
  · intro hm
    obtain ⟨h1, h2, h3, h4, h5⟩ := h.fin hm
    refine ⟨h4, ?_, h5, h.finished_terminal hm⟩
    intro i hi
    have hlt : i < cfg.workers.length := by rw [h.len]; exact hi
    have hw : cfg.workers[i]? = some (cfg.workers.get ⟨i, hlt⟩) := by
      simp [List.getElem?_eq_getElem hlt]
    have hd := h.all_done h2 i _ hw
    rw [hd] at hw
    rw [h.sigOf i]
    simp [hw]

/-- On `scheduleA` (two workers, three candidates): nineteen steps, and `main`
receives two worker signals, one from each worker, and one aggregator signal. -/
theorem pipeline_terminates_witness :
    run resolverA 2 "example.com" (init 2 wordsA) scheduleA = some finalA ∧
      scheduleA.length ≤ 4 * wordsA.length + 3 * 2 + 6 ∧
      workerSignals scheduleA = 2 ∧ workerSignalsOf 0 scheduleA = 1 ∧
      workerSignalsOf 1 scheduleA = 1 ∧ aggSignals scheduleA = 1 :=
  have h := pipeline_terminates resolverA 2 "example.com" wordsA (Or.inl (by decide))
    (by
      intro line hl
      simp only [wordsA, List.mem_cons, List.mem_singleton, List.not_mem_nil,
        or_false] at hl
      rcases hl with rfl | rfl | rfl <;> exact ⟨1, _, by rfl⟩)
    scheduleA finalA (by rfl)
  have hf := h.2.2.2.2.2.2.2.1 rfl
  ⟨by rfl, h.1, hf.1, hf.2.1 0 (by decide), hf.2.1 1 (by decide), hf.2.2.1⟩

end SubdomainLister
